import Mathlib

/-!
Verification development for the p3d floor-plan editor's core engines:
the room-inference engine (`buildRoomsFromWalls` in `src/utils/rooms.ts`),
the geometry primitives (`src/utils/geometry.ts`) and the inner-metrics
engine (`src/utils/planMetrics.ts`).

Embedding conventions:
* JavaScript numbers are modelled as exact rationals (`ℚ`).  `Math.hypot`
  is not rational, so every definition that calls it is parametrised by a
  function `hyp : ℚ → ℚ → ℚ`; theorems quantify over `hyp`, and closed
  statements instantiate it with `hypAbs (dx, dy) = |dx| + |dy|`, which
  agrees with the Euclidean norm on axis-aligned vectors (all concrete
  geometry used in closed statements is axis-aligned, so the instantiation
  computes exactly the values the JavaScript code computes).
* `atan2`-based angle comparison is modelled by the exact comparator
  `atanLt`, which orders nonzero vectors by their `atan2` value in
  `(-pi, pi]` using only sign tests and cross products.
* JavaScript `Map`s (insertion-ordered, keys unique) are modelled as
  association lists; `jsSet` updates in place or appends, `jsGet` finds the
  entry.  `Array.prototype.sort` with a consistent comparator is stable and
  is modelled by a stable insertion sort.
-/

set_option allowUnsafeReducibility true in
attribute [semireducible] Rat.add Rat.sub Rat.mul Rat.div Rat.inv Rat.neg

set_option maxRecDepth 100000

namespace P3d

/-- `Vec2` from `types/plan.ts`. -/
structure Vec2 where
  x : ℚ
  y : ℚ
deriving DecidableEq, Repr

/-- `NodePoint` from `types/plan.ts`. -/
structure NodePoint where
  id : Int
  x : ℚ
  y : ℚ
deriving DecidableEq, Repr

/-- `Wall` from `types/plan.ts`. -/
structure Wall where
  id : Int
  name : String
  a : Int
  b : Int
  thickness : ℚ
deriving DecidableEq, Repr

/-- `Room` from `types/plan.ts`. -/
structure Room where
  id : Int
  name : String
  nodeIds : List Int
  points : List Vec2
deriving DecidableEq, Repr

/-! ### Association lists with JavaScript `Map` semantics -/

variable {κ α : Type} [DecidableEq κ]

/-- `Map.get`: value of the first entry with the given key. -/
def jsGet (k : κ) : List (κ × α) → Option α
  | [] => none
  | p :: ps => if p.1 = k then some p.2 else jsGet k ps

/-- `Map.set`: update the entry in place if the key is present, else append. -/
def jsSet (k : κ) (v : α) : List (κ × α) → List (κ × α)
  | [] => [(k, v)]
  | p :: ps => if p.1 = k then (k, v) :: ps else p :: jsSet k v ps

/-! ### Geometry primitives (`src/utils/geometry.ts`) -/

/-- `distance(a, b)`, with the float `Math.hypot` abstracted into `hyp`. -/
def distance (hyp : ℚ → ℚ → ℚ) (a b : Vec2) : ℚ :=
  hyp (a.x - b.x) (a.y - b.y)

/-- Stand-in interpretation of `Math.hypot` used by closed statements.
It agrees with the Euclidean norm on every axis-aligned vector, which is
all the concrete geometry below uses. -/
def hypAbs (dx dy : ℚ) : ℚ := |dx| + |dy|

/-- `polygonAreaSigned(points)`: half the shoelace sum, in input order.
The identical local helper inside `buildRoomsFromWalls` is also this. -/
def polygonAreaSigned (points : List Vec2) : ℚ :=
  ((List.range points.length).foldl (fun sum i =>
    let a := points.getD i ⟨0, 0⟩
    let b := points.getD ((i + 1) % points.length) ⟨0, 0⟩
    sum + (a.x * b.y - b.x * a.y)) 0) / 2

/-- `polygonArea(points)`: absolute value of the signed area. -/
def polygonArea (points : List Vec2) : ℚ := |polygonAreaSigned points|

/-- The `lineIntersection` closure inside `offsetPolygon`. -/
def lineIntersection (p1 d1 p2 d2 : Vec2) : Option Vec2 :=
  let cross := d1.x * d2.y - d1.y * d2.x
  if |cross| < 1 / 1000000 then none
  else
    let t := ((p2.x - p1.x) * d2.y - (p2.y - p1.y) * d2.x) / cross
    some ⟨p1.x + d1.x * t, p1.y + d1.y * t⟩

/-- The record built by the `getEdge` closure inside `offsetPolygon`. -/
structure EdgeData where
  p : Vec2
  n : Vec2
  o : ℚ
  a : Vec2
  d : Vec2

/-- The `getEdge` closure inside `offsetPolygon`.  `Math.hypot(dx,dy) || 1`
is modelled by replacing a zero result of `hyp` with `1`. -/
def getEdge (hyp : ℚ → ℚ → ℚ) (points : List Vec2) (offsets : List ℚ)
    (sign : ℚ) (index : ℕ) : EdgeData :=
  let a := points.getD index ⟨0, 0⟩
  let b := points.getD ((index + 1) % points.length) ⟨0, 0⟩
  let dx := b.x - a.x
  let dy := b.y - a.y
  let len := if hyp dx dy = 0 then 1 else hyp dx dy
  let nx := sign * (-dy) / len
  let ny := sign * dx / len
  let offset := offsets.getD index 0
  { p := ⟨a.x + nx * offset, a.y + ny * offset⟩
    n := ⟨nx, ny⟩
    o := offset
    a := a
    d := ⟨dx, dy⟩ }

/-- One loop iteration of `offsetPolygon`: the mitred corner at vertex `i`
when the intersection exists, else the midpoint of the two offset edge
endpoints at the vertex (`prevOffset`/`nextOffset` recompute `a + n*o`,
exactly as the source does). -/
def offsetVertex (hyp : ℚ → ℚ → ℚ) (points : List Vec2) (offsets : List ℚ)
    (sign : ℚ) (i : ℕ) : Vec2 :=
  let prevEdge := getEdge hyp points offsets sign ((i + points.length - 1) % points.length)
  let nextEdge := getEdge hyp points offsets sign i
  (lineIntersection prevEdge.p prevEdge.d nextEdge.p nextEdge.d).getD
    ⟨((prevEdge.a.x + prevEdge.n.x * prevEdge.o) + (nextEdge.a.x + nextEdge.n.x * nextEdge.o)) / 2,
     ((prevEdge.a.y + prevEdge.n.y * prevEdge.o) + (nextEdge.a.y + nextEdge.n.y * nextEdge.o)) / 2⟩

/-- `offsetPolygon(points, offsets)` from `geometry.ts`. -/
def offsetPolygon (hyp : ℚ → ℚ → ℚ) (points : List Vec2) (offsets : List ℚ) :
    Option (List Vec2) :=
  if points.length < 3 ∨ offsets.length ≠ points.length then none
  else
    let sign : ℚ := if 0 ≤ polygonAreaSigned points then 1 else -1
    some ((List.range points.length).map (offsetVertex hyp points offsets sign))

/-! ### Room inference engine (`src/utils/rooms.ts`, `buildRoomsFromWalls`) -/

/-- A traced candidate face: node-id cycle, its coordinates and signed area. -/
structure Face where
  nodeIds : List Int
  points : List Vec2
  area : ℚ
deriving DecidableEq, Repr

/-- `new Map(nodes.map((node) => [node.id, node]))`: a later node with the
same id overwrites an earlier one (keeping the first insertion position). -/
def nodeMapOf (nodes : List NodePoint) : List (Int × NodePoint) :=
  nodes.foldl (fun m n => jsSet n.id n m) []

/-- Appending to the neighbor array of `k` (creating the entry if absent),
mirroring `adjacency.set(k, []) … adjacency.get(k)?.push(v)`. -/
def adjPush (k v : Int) : List (Int × List Int) → List (Int × List Int)
  | [] => [(k, [v])]
  | p :: ps => if p.1 = k then (p.1, p.2 ++ [v]) :: ps else p :: adjPush k v ps

/-- The undirected adjacency map: for each wall, `b` is pushed onto `a`'s
list and `a` onto `b`'s list, in wall order. -/
def adjacencyOf (walls : List Wall) : List (Int × List Int) :=
  walls.foldl (fun m w => adjPush w.b w.a (adjPush w.a w.b m)) []

/-- `[...new Set(neighbors)]`: deduplicate keeping first occurrences. -/
def dedupFirst (l : List Int) : List Int :=
  l.foldl (fun acc x => if x ∈ acc then acc else acc ++ [x]) []

/-- Exact comparator for `atan2(ay, ax) < atan2(by, bx)` (floats aside):
`atan2` ranges over `(-pi, pi]`; vectors are classified into the lower
half-plane, the positive x-axis (including the origin, where `atan2` is 0),
the upper half-plane and the negative x-axis, and ordered inside an open
half-plane by the cross product. -/
def atanClass (dx dy : ℚ) : ℕ :=
  if dy < 0 then 0
  else if dy = 0 ∧ 0 ≤ dx then 1
  else if 0 < dy then 2
  else 3

def atanLt (ax ay bx By : ℚ) : Bool :=
  let ca := atanClass ax ay
  let cb := atanClass bx By
  if ca ≠ cb then decide (ca < cb)
  else if ca = 0 ∨ ca = 2 then decide (0 < ax * By - bx * ay)
  else false

/-- The sort comparator in `buildRoomsFromWalls`: neighbors are compared by
the angle from `node`; if either endpoint is missing from the node map the
comparator returns 0 (modelled as incomparable, so a stable sort keeps the
original relative order, as the JavaScript stable sort does). -/
def neighborLt (nm : List (Int × NodePoint)) (node : NodePoint) (a b : Int) : Bool :=
  match jsGet a nm, jsGet b nm with
  | some na, some nb =>
      atanLt (na.x - node.x) (na.y - node.y) (nb.x - node.x) (nb.y - node.y)
  | _, _ => false

/-- Stable insertion of `x` into `l`: `x` goes before the first element
strictly greater than it, hence after all elements it ties with. -/
def insertStable (lt : Int → Int → Bool) (x : Int) : List Int → List Int
  | [] => [x]
  | y :: ys => if lt x y then x :: y :: ys else y :: insertStable lt x ys

/-- Stable sort by the strict comparator `lt` (insertion sort; for a
consistent comparator this computes the same list as any stable sort,
in particular the JavaScript `Array.prototype.sort`). -/
def sortStable (lt : Int → Int → Bool) (l : List Int) : List Int :=
  l.foldl (fun acc x => insertStable lt x acc) []

/-- The angle map: for every adjacency entry whose node exists, the
deduplicated neighbor list sorted by angle.  Adjacency keys are unique, so
`Map.set` in iteration order is a plain append, i.e. a `filterMap`. -/
def angleMapOf (nm : List (Int × NodePoint)) (adj : List (Int × List Int)) :
    List (Int × List Int) :=
  adj.filterMap (fun p =>
    (jsGet p.1 nm).map (fun node =>
      (p.1, sortStable (neighborLt nm node) (dedupFirst p.2))))

/-- `nextNeighbor(nodeId, fromId)`: the neighbor immediately preceding
`fromId` in the cyclic angular order at `nodeId`. -/
def nextNeighbor (am : List (Int × List Int)) (nodeId fromId : Int) : Option Int :=
  match jsGet nodeId am with
  | none => none
  | some list =>
      if list.length < 2 then none
      else
        match list.findIdx? (fun x => x == fromId) with
        | none => none
        | some index => some (list.getD ((index + list.length - 1) % list.length) 0)

/-- The `while (safety < 500)` tracing loop, with the remaining iteration
count as fuel.  Returns the node path pushed after the start node, the
traversed directed edges, and whether the trace closed on the start edge. -/
def traceLoop (am : List (Int × List Int)) (su sv : Int) :
    ℕ → Int → Int → List Int × List (Int × Int) × Bool
  | 0, _, _ => ([], [], false)
  | fuel + 1, u, v =>
      match nextNeighbor am v u with
      | none => ([v], [(u, v)], false)
      | some nxt =>
          if v = su ∧ nxt = sv then ([v], [(u, v)], true)
          else
            let r := traceLoop am su sv fuel v nxt
            (v :: r.1, (u, v) :: r.2.1, r.2.2)

/-- One `directions.forEach` body: trace the face starting with the directed
edge `(su, sv)` unless it is already visited, and record it if it closes
with enough vertices and non-degenerate area. -/
def traceDir (nm : List (Int × NodePoint)) (am : List (Int × List Int))
    (st : List (Int × Int) × List Face) (su sv : Int) :
    List (Int × Int) × List Face :=
  if (su, sv) ∈ st.1 then st
  else
    let r := traceLoop am su sv 500 su sv
    let path := su :: r.1
    if r.2.2 = true ∧ 4 ≤ path.length then
      let visited := st.1 ++ r.2.1
      let cycle := path.dropLast
      let points := cycle.filterMap (fun id =>
        (jsGet id nm).map (fun n => Vec2.mk n.x n.y))
      if 3 ≤ points.length ∧ 1 / 10000 < |polygonAreaSigned points| then
        (visited, st.2 ++ [⟨cycle, points, polygonAreaSigned points⟩])
      else (visited, st.2)
    else st

/-- All candidate faces, traced from both directions of every wall. -/
def tracedFaces (nodes : List NodePoint) (walls : List Wall) : List Face :=
  let nm := nodeMapOf nodes
  let am := angleMapOf nm (adjacencyOf walls)
  (walls.foldl (fun st w => traceDir nm am (traceDir nm am st w.a w.b) w.b w.a)
    ([], [])).2

/-- The BFS loop of the connected-component pass (queue drained from the
front, neighbors pushed at the back).  Each dequeue consumes one unit of
fuel; every enqueued node comes with a fresh assignment in the component
map, and all reachable nodes are adjacency keys, so `adj.length` fuel
always suffices to drain the queue. -/
def bfsLoop (adj : List (Int × List Int)) (cid : ℕ) :
    ℕ → List Int → List (Int × ℕ) → List (Int × ℕ)
  | 0, _, m => m
  | _ + 1, [], m => m
  | fuel + 1, current :: queue, m =>
      let step := ((jsGet current adj).getD []).foldl
        (fun (acc : List (Int × ℕ) × List Int) nxt =>
          if (jsGet nxt acc.1).isSome then acc
          else (acc.1 ++ [(nxt, cid)], acc.2 ++ [nxt])) (m, queue)
      bfsLoop adj cid fuel step.2 step.1

/-- `componentByNode`: BFS from every adjacency key not yet assigned, in
insertion order, numbering components sequentially. -/
def componentByNodeOf (adj : List (Int × List Int)) : List (Int × ℕ) :=
  (adj.foldl (fun (st : List (Int × ℕ) × ℕ) p =>
    if (jsGet p.1 st.1).isSome then st
    else (bfsLoop adj st.2 (adj.length + 1) [p.1] (st.1 ++ [(p.1, st.2)]), st.2 + 1))
    ([], 0)).1

/-- Appending a face to its component bucket, as `facesByComponent` does. -/
def pushGroup (k : Int) (f : Face) : List (Int × List Face) → List (Int × List Face)
  | [] => [(k, [f])]
  | p :: ps => if p.1 = k then (p.1, p.2 ++ [f]) :: ps else p :: pushGroup k f ps

/-- `facesByComponent`: faces grouped by the component of their first node
(`?? -1` when the node is unassigned), in insertion order. -/
def facesByComponentOf (cm : List (Int × ℕ)) (faces : List Face) :
    List (Int × List Face) :=
  faces.foldl (fun m f =>
    let comp : Int := match jsGet (f.nodeIds.headD 0) cm with
      | some c => (c : Int)
      | none => -1
    pushGroup comp f m) []

/-- Total unsigned area of a face group
(`reduce((sum, face) => sum + Math.abs(face.area), 0)`). -/
def sumAbsArea (group : List Face) : ℚ :=
  group.foldl (fun sum f => sum + |f.area|) 0

/-- The per-component filter inside `buildRoomsFromWalls`: keep a group
outright when it has at most one face or only one winding, otherwise keep
the preferred winding group. -/
def keepPreferred (group : List Face) : List Face :=
  if group.length ≤ 1 then group
  else
    let positive := group.filter (fun f => 0 < f.area)
    let negative := group.filter (fun f => f.area < 0)
    if positive.length = 0 ∨ negative.length = 0 then group
    else if negative.length > positive.length then negative
    else if negative.length = positive.length then
      if sumAbsArea negative < sumAbsArea positive then negative else positive
    else positive

/-- The face groups of each connected component, in discovery order. -/
def componentGroups (nodes : List NodePoint) (walls : List Wall) : List (List Face) :=
  (facesByComponentOf (componentByNodeOf (adjacencyOf walls))
    (tracedFaces nodes walls)).map (fun p => p.2)

/-- The final numbering/naming pass over the surviving faces. -/
def roomsFromFaces (faces : List Face) : List Room :=
  faces.enum.map (fun p =>
    { id := (p.1 : Int) + 1
      name := "Комната " ++ toString (p.1 + 1)
      nodeIds := p.2.nodeIds
      points := p.2.points })

/-- `buildRoomsFromWalls(nodes, walls)` from `src/utils/rooms.ts`. -/
def buildRoomsFromWalls (nodes : List NodePoint) (walls : List Wall) : List Room :=
  let faces := tracedFaces nodes walls
  if faces = [] then []
  else roomsFromFaces ((componentGroups nodes walls).flatMap keepPreferred)

/-! ### Inner-metrics engine (`src/utils/planMetrics.ts`) -/

/-- `edgeKey(a, b)`: the unordered pair, modelled as `(min, max)` (the
string `min + "-" + max` is injective on integer pairs). -/
def edgeKey (a b : Int) : Int × Int := (min a b, max a b)

/-- Stable insertion by ascending wall id, mirroring the comparator
`(a, b) => a.id - b.id`. -/
def insertWallStable (w : Wall) : List Wall → List Wall
  | [] => [w]
  | y :: ys => if w.id < y.id then w :: y :: ys else y :: insertWallStable w ys

/-- `buildWallEdgeMap(walls)`: walls bucketed by their endpoint pair, each
bucket then sorted ascending by wall id (stably, as the JavaScript sort). -/
def buildWallEdgeMap (walls : List Wall) : List ((Int × Int) × List Wall) :=
  let grouped := walls.foldl (fun m w =>
    let key := edgeKey w.a w.b
    match jsGet key m with
    | none => jsSet key [w] m
    | some list => jsSet key (list ++ [w]) m) []
  grouped.map (fun p => (p.1, p.2.foldl (fun acc w => insertWallStable w acc) []))

/-- The wall looked up for edge `i` of a room's cycle:
`(wallEdgeMap.get(edgeKey(nodeId, nextId)) || [])[0]`.  An out-of-range
index (possible when `nodeIds` is shorter than `points`, or empty, where
JavaScript computes a `NaN` key) matches no wall. -/
def roomEdgeWall (room : Room) (wem : List ((Int × Int) × List Wall)) (i : ℕ) :
    Option Wall :=
  match room.nodeIds.get? i, room.nodeIds.get? ((i + 1) % room.nodeIds.length) with
  | some nodeId, some nextId => ((jsGet (edgeKey nodeId nextId) wem).getD []).head?
  | _, _ => none

/-- `getRoomOffsets`: half the looked-up wall's thickness (or the default)
per cycle edge, scaled to pixels. -/
def getRoomOffsets (room : Room) (wem : List ((Int × Int) × List Wall))
    (defaultWallThickness scale : ℚ) : List ℚ :=
  (List.range room.nodeIds.length).map (fun i =>
    let thickness := match roomEdgeWall room wem i with
      | some w => w.thickness
      | none => defaultWallThickness
    thickness * scale / 2)

/-- `getRoomInnerPolygon`: the offset polygon, or `null` when the offset
fails or yields fewer than 3 points. -/
def getRoomInnerPolygon (hyp : ℚ → ℚ → ℚ) (room : Room)
    (wem : List ((Int × Int) × List Wall)) (defaultWallThickness scale : ℚ) :
    Option (List Vec2) :=
  match offsetPolygon hyp room.points (getRoomOffsets room wem defaultWallThickness scale) with
  | none => none
  | some inner => if inner.length < 3 then none else some inner

/-- `getRoomArea(room, scale)` from `geometry.ts` (the `Array.isArray`
guard is vacuous on typed input). -/
def getRoomArea (room : Room) (scale : ℚ) : ℚ :=
  polygonArea room.points / (scale * scale)

/-- `getRoomInnerArea`. -/
def getRoomInnerArea (hyp : ℚ → ℚ → ℚ) (room : Room)
    (wem : List ((Int × Int) × List Wall)) (defaultWallThickness scale : ℚ) : ℚ :=
  match getRoomInnerPolygon hyp room wem defaultWallThickness scale with
  | none => getRoomArea room scale
  | some inner => polygonArea inner / (scale * scale)

/-- Sum of consecutive vertex distances, with wrap-around. -/
def perimeterSum (hyp : ℚ → ℚ → ℚ) (points : List Vec2) : ℚ :=
  (List.range points.length).foldl (fun sum i =>
    sum + distance hyp (points.getD i ⟨0, 0⟩) (points.getD ((i + 1) % points.length) ⟨0, 0⟩)) 0

/-- `getRoomPerimeter`. -/
def getRoomPerimeter (hyp : ℚ → ℚ → ℚ) (room : Room)
    (wem : List ((Int × Int) × List Wall)) (defaultWallThickness scale : ℚ)
    (useInnerPolygon : Bool) : ℚ :=
  let points := if useInnerPolygon then
      (getRoomInnerPolygon hyp room wem defaultWallThickness scale).getD room.points
    else room.points
  if points.length = 0 then 0
  else perimeterSum hyp points / scale

/-- The accumulator update of `getInnerLengthByWallId`: JavaScript's
`existing ? Math.min(existing, length) : length` treats a stored length of
exactly 0 as absent (falsy) and overwrites it. -/
def innerLengthStep (old : Option ℚ) (length : ℚ) : ℚ :=
  match old with
  | none => length
  | some e => if e = 0 then length else min e length

/-- `getInnerLengthByWallId(rooms, wallEdgeMap, defaultWallThickness, scale)`. -/
def getInnerLengthByWallId (hyp : ℚ → ℚ → ℚ) (rooms : List Room)
    (wem : List ((Int × Int) × List Wall)) (defaultWallThickness scale : ℚ) :
    List (Int × ℚ) :=
  rooms.foldl (fun map room =>
    match getRoomInnerPolygon hyp room wem defaultWallThickness scale with
    | none => map
    | some inner =>
        if inner.length ≠ room.points.length then map
        else
          (List.range inner.length).foldl (fun map i =>
            match roomEdgeWall room wem i with
            | none => map
            | some wall =>
                let length := distance hyp (inner.getD i ⟨0, 0⟩)
                  (inner.getD ((i + 1) % inner.length) ⟨0, 0⟩) / scale
                jsSet wall.id (innerLengthStep (jsGet wall.id map) length) map) map)
    []

/-! ### Spec-side definitions for refinement claims -/

/-- The winding disambiguation rule as the spec words it (§4.2 step 6):
keep the whole group when only one winding occurs; otherwise keep the group
with strictly more faces, and on a count tie the group with the smaller
total unsigned area.  The spec leaves an exact area tie unspecified; this
definition resolves it to the positive group, which is what the code does. -/
def specKeep (group : List Face) : List Face :=
  let positive := group.filter (fun f => 0 < f.area)
  let negative := group.filter (fun f => f.area < 0)
  if positive = [] ∨ negative = [] then group
  else if negative.length < positive.length then positive
  else if positive.length < negative.length then negative
  else if sumAbsArea negative < sumAbsArea positive then negative
  else positive

/-- A pair of node ids is an edge of the wall list, in either direction. -/
def isWallEdge (walls : List Wall) (u v : Int) : Prop :=
  ∃ w ∈ walls, (w.a = u ∧ w.b = v) ∨ (w.a = v ∧ w.b = u)

instance (walls : List Wall) (u v : Int) : Decidable (isWallEdge walls u v) :=
  List.decidableBEx _ walls

/-- The per-wall candidate inner-edge lengths, in processing order: one for
every edge of every successfully offset room whose looked-up wall is `wid`. -/
def innerLengthCandidates (hyp : ℚ → ℚ → ℚ) (rooms : List Room)
    (wem : List ((Int × Int) × List Wall)) (defaultWallThickness scale : ℚ)
    (wid : Int) : List ℚ :=
  rooms.flatMap (fun room =>
    match getRoomInnerPolygon hyp room wem defaultWallThickness scale with
    | none => []
    | some inner =>
        if inner.length ≠ room.points.length then []
        else
          (List.range inner.length).filterMap (fun i =>
            match roomEdgeWall room wem i with
            | none => none
            | some wall =>
                if wall.id = wid then
                  some (distance hyp (inner.getD i ⟨0, 0⟩)
                    (inner.getD ((i + 1) % inner.length) ⟨0, 0⟩) / scale)
                else none))

/-- The result `getInnerLengthByWallId` reports for one wall, computed
declaratively: the fold of `innerLengthStep` over the wall's candidate
lengths (which is their minimum as long as no intermediate value is 0). -/
def foldInnerLength (candidates : List ℚ) : Option ℚ :=
  candidates.foldl (fun acc x => some (innerLengthStep acc x)) none

/-- The `(wall id, inner length)` pairs one room contributes to the
`getInnerLengthByWallId` map, in edge order. -/
def roomInnerUpdates (hyp : ℚ → ℚ → ℚ) (room : Room)
    (wem : List ((Int × Int) × List Wall)) (defaultWallThickness scale : ℚ) :
    List (Int × ℚ) :=
  match getRoomInnerPolygon hyp room wem defaultWallThickness scale with
  | none => []
  | some inner =>
      if inner.length ≠ room.points.length then []
      else
        (List.range inner.length).filterMap (fun i =>
          (roomEdgeWall room wem i).map (fun wall =>
            (wall.id, distance hyp (inner.getD i ⟨0, 0⟩)
              (inner.getD ((i + 1) % inner.length) ⟨0, 0⟩) / scale)))

/-- All `(wall id, inner length)` pairs, in processing order. -/
def innerLengthUpdates (hyp : ℚ → ℚ → ℚ) (rooms : List Room)
    (wem : List ((Int × Int) × List Wall)) (defaultWallThickness scale : ℚ) :
    List (Int × ℚ) :=
  rooms.flatMap (fun room => roomInnerUpdates hyp room wem defaultWallThickness scale)

/-- One map update of `getInnerLengthByWallId`. -/
def applyUpdate (m : List (Int × ℚ)) (u : Int × ℚ) : List (Int × ℚ) :=
  jsSet u.1 (innerLengthStep (jsGet u.1 m) u.2) m

/-- The invariant that `tracedFaces` guarantees for every face: at least
three cycle entries, every consecutive (cyclically wrapped) id pair is a
wall of the input, and the point list is exactly the node-map image of the
id cycle (in particular every id resolves to a node). -/
def FaceOK (nodes : List NodePoint) (walls : List Wall) (f : Face) : Prop :=
  3 ≤ f.nodeIds.length ∧
  (∀ i, i < f.nodeIds.length →
    isWallEdge walls (f.nodeIds.getD i 0)
      (f.nodeIds.getD ((i + 1) % f.nodeIds.length) 0)) ∧
  f.nodeIds.map (fun id => (jsGet id (nodeMapOf nodes)).map (fun n => Vec2.mk n.x n.y))
    = f.points.map some

/-- The cross product `lineIntersection` tests at vertex `i` of
`offsetPolygon`: previous edge direction × next edge direction (offsets do
not change edge directions, so this is the value the parallel test sees
for any offsets). -/
def cornerCross (points : List Vec2) (i : ℕ) : ℚ :=
  let n := points.length
  let p := (i + n - 1) % n
  let a1 := points.getD p ⟨0, 0⟩
  let b1 := points.getD ((p + 1) % n) ⟨0, 0⟩
  let a2 := points.getD i ⟨0, 0⟩
  let b2 := points.getD ((i + 1) % n) ⟨0, 0⟩
  (b1.x - a1.x) * (b2.y - a2.y) - (b1.y - a1.y) * (b2.x - a2.x)

/-! ### Concrete inputs used by closed statements

All geometry is axis-aligned or uses only coordinates at which `hypAbs`
agrees with the Euclidean norm, so these inputs exercise the embedding on
exactly the values the JavaScript code would compute. -/

/-- A 10×10 square room: 4 nodes, 4 walls. -/
def squareNodes : List NodePoint := [⟨1, 0, 0⟩, ⟨2, 10, 0⟩, ⟨3, 10, 10⟩, ⟨4, 0, 10⟩]

def squareWalls : List Wall :=
  [⟨1, "w1", 1, 2, 1⟩, ⟨2, "w2", 2, 3, 1⟩, ⟨3, "w3", 3, 4, 1⟩, ⟨4, "w4", 4, 1, 1⟩]

/-- The single room `buildRoomsFromWalls` returns for the square. -/
def squareRoom : Room :=
  ⟨1, "Комната 1", [1, 2, 3, 4], [⟨0, 0⟩, ⟨10, 0⟩, ⟨10, 10⟩, ⟨0, 10⟩]⟩

/-- Four nodes in convex position joined by all six walls: the two
diagonals cross without a node, so face tracing revisits nodes. -/
def crossNodes : List NodePoint := [⟨1, 0, 0⟩, ⟨2, 4, 0⟩, ⟨3, 4, 4⟩, ⟨4, 0, 4⟩]

def crossWalls : List Wall :=
  [⟨1, "w1", 1, 2, 1⟩, ⟨2, "w2", 2, 3, 1⟩, ⟨3, "w3", 3, 4, 1⟩,
   ⟨4, "w4", 4, 1, 1⟩, ⟨5, "w5", 1, 3, 1⟩, ⟨6, "w6", 2, 4, 1⟩]

/-- One component: a 10×10 square with a dangling wall into its interior
(killing the square's inner trace), bridged to a 4×4 square.  The traced
faces are one negative face of area 116 and one positive face of area 16. -/
def tieNodes : List NodePoint :=
  [⟨1, 0, 0⟩, ⟨2, 10, 0⟩, ⟨3, 10, 10⟩, ⟨4, 0, 10⟩, ⟨5, 1, 1⟩,
   ⟨6, 30, 0⟩, ⟨7, 34, 0⟩, ⟨8, 34, 4⟩, ⟨9, 30, 4⟩]

def tieWalls : List Wall :=
  [⟨1, "w1", 1, 2, 1⟩, ⟨2, "w2", 2, 3, 1⟩, ⟨3, "w3", 3, 4, 1⟩, ⟨4, "w4", 4, 1, 1⟩,
   ⟨5, "w5", 1, 5, 1⟩, ⟨6, "w6", 6, 7, 1⟩, ⟨7, "w7", 7, 8, 1⟩, ⟨8, "w8", 8, 9, 1⟩,
   ⟨9, "w9", 9, 6, 1⟩, ⟨10, "w10", 2, 6, 1⟩]

/-- The negative (outer, area −116) face traced for `tieNodes`/`tieWalls`. -/
def tieNegFace : Face :=
  ⟨[2, 1, 4, 3, 2, 6, 9, 8, 7, 6],
   [⟨10, 0⟩, ⟨0, 0⟩, ⟨0, 10⟩, ⟨10, 10⟩, ⟨10, 0⟩, ⟨30, 0⟩, ⟨30, 4⟩, ⟨34, 4⟩, ⟨34, 0⟩, ⟨30, 0⟩],
   -116⟩

/-- The positive (inner 4×4 square, area 16) face traced for `tieNodes`. -/
def tiePosFace : Face :=
  ⟨[6, 7, 8, 9], [⟨30, 0⟩, ⟨34, 0⟩, ⟨34, 4⟩, ⟨30, 4⟩], 16⟩

/-- A pentagon with a collinear vertex at `(1, 0)`: its two incident edges
are parallel, so the zero-offset polygon falls back to an edge midpoint. -/
def pentagonPoints : List Vec2 := [⟨0, 0⟩, ⟨1, 0⟩, ⟨2, 0⟩, ⟨2, 2⟩, ⟨0, 2⟩]

/-- A 2×2 square room whose four offsets of 1 collapse the inner polygon
to the single point `(1, 1)`, so its wall-7 inner edge has length 0. -/
def zeroLenRoom : Room := ⟨1, "a", [1, 2, 3, 4], [⟨0, 0⟩, ⟨2, 0⟩, ⟨2, 2⟩, ⟨0, 2⟩]⟩

/-- A 4×4 square room that also walks the wall-7 edge `(1, 2)`, producing
a positive inner length of 2 for the same wall. -/
def posLenRoom : Room := ⟨2, "b", [1, 2, 6, 5], [⟨0, 10⟩, ⟨4, 10⟩, ⟨4, 14⟩, ⟨0, 14⟩]⟩

def zeroLenWalls : List Wall := [⟨7, "w", 1, 2, 2⟩]

/-- An L-shaped room (a 4×4 square minus its top-right 2×2 corner).  The
wall from `(4, 2)` to `(2, 2)` ends at the reflex corner: with uniform
thickness 1 its inner edge has length exactly 2, equal to its outer
length. -/
def lShapeRoom : Room :=
  ⟨1, "l", [1, 2, 3, 4, 5, 6],
   [⟨0, 0⟩, ⟨4, 0⟩, ⟨4, 2⟩, ⟨2, 2⟩, ⟨2, 4⟩, ⟨0, 4⟩]⟩

def lShapeWalls : List Wall :=
  [⟨1, "w1", 1, 2, 1⟩, ⟨2, "w2", 2, 3, 1⟩, ⟨3, "w3", 3, 4, 1⟩,
   ⟨4, "w4", 4, 5, 1⟩, ⟨5, "w5", 5, 6, 1⟩, ⟨6, "w6", 6, 1, 1⟩]

/-- A degenerate two-point room, for which `offsetPolygon` returns null. -/
def twoPointRoom : Room := ⟨1, "d", [1, 2], [⟨0, 0⟩, ⟨3, 0⟩]⟩

/-- An axis-aligned rectangle with corner `(x0, y0)`, width `w` and height
`h`, listed counter-clockwise in screen coordinates (positive shoelace
area), as the point list of a room. -/
def rectPoints (x0 y0 w h : ℚ) : List Vec2 :=
  [⟨x0, y0⟩, ⟨x0 + w, y0⟩, ⟨x0 + w, y0 + h⟩, ⟨x0, y0 + h⟩]

/-- The rectangle as a Room over node ids 1 to 4. -/
def rectRoom (x0 y0 w h : ℚ) : Room := ⟨1, "r", [1, 2, 3, 4], rectPoints x0 y0 w h⟩

/-- Four walls around the rectangle (wall `k` joins node `k` to `k + 1`,
wall 4 closes the cycle), with individual thicknesses. -/
def rectWalls (t1 t2 t3 t4 : ℚ) : List Wall :=
  [⟨1, "w1", 1, 2, t1⟩, ⟨2, "w2", 2, 3, t2⟩, ⟨3, "w3", 3, 4, t3⟩, ⟨4, "w4", 4, 1, t4⟩]

/-! ## Lemmas -/

section MapLemmas

variable {κ α : Type} [DecidableEq κ]

theorem jsGet_cons (k : κ) (p : κ × α) (ps : List (κ × α)) :
    jsGet k (p :: ps) = if p.1 = k then some p.2 else jsGet k ps := rfl

theorem jsGet_jsSet_self (k : κ) (v : α) (m : List (κ × α)) :
    jsGet k (jsSet k v m) = some v := by
  induction m with
  | nil => simp [jsSet, jsGet]
  | cons p ps ih =>
      by_cases h : p.1 = k
      · simp [jsSet, jsGet, h]
      · simp [jsSet, jsGet, h, ih]

theorem jsGet_jsSet_other (k k' : κ) (v : α) (m : List (κ × α)) (h : k' ≠ k) :
    jsGet k' (jsSet k v m) = jsGet k' m := by
  have hk : ¬ k = k' := fun hk => h hk.symm
  induction m with
  | nil => simp [jsSet, jsGet, hk]
  | cons p ps ih =>
      by_cases hp : p.1 = k
      · subst hp
        simp [jsSet, jsGet, hk, ih]
      · simp [jsSet, jsGet, hp, ih]

theorem jsGet_mem {k : κ} {v : α} {m : List (κ × α)} (h : jsGet k m = some v) :
    (k, v) ∈ m := by
  induction m with
  | nil => simp [jsGet] at h
  | cons p ps ih =>
      by_cases hp : p.1 = k
      · simp [jsGet, hp] at h
        have : p = (k, v) := by
          cases p
          simp only [Prod.mk.injEq]
          exact ⟨hp, h⟩
        exact this ▸ List.mem_cons_self _ _
      · simp [jsGet, hp] at h
        exact List.mem_cons_of_mem _ (ih h)

end MapLemmas

section ListHelpers

theorem mem_insertStable {lt : Int → Int → Bool} {x y : Int} :
    ∀ {l : List Int}, y ∈ insertStable lt x l → y = x ∨ y ∈ l := by
  intro l
  induction l with
  | nil =>
      intro h
      simp [insertStable] at h
      exact Or.inl h
  | cons z zs ih =>
      intro h
      by_cases hlt : lt x z = true
      · simp only [insertStable, hlt, if_true] at h
        rcases List.mem_cons.1 h with h | h
        · exact Or.inl h
        · exact Or.inr h
      · simp only [insertStable, hlt, if_false] at h
        rcases List.mem_cons.1 h with h | h
        · exact Or.inr (h ▸ List.mem_cons_self _ _)
        · rcases ih h with h | h
          · exact Or.inl h
          · exact Or.inr (List.mem_cons_of_mem _ h)

theorem mem_sortStable {lt : Int → Int → Bool} {y : Int} :
    ∀ {l : List Int} {acc : List Int},
      y ∈ l.foldl (fun acc x => insertStable lt x acc) acc → y ∈ acc ∨ y ∈ l := by
  intro l
  induction l with
  | nil =>
      intro acc h
      exact Or.inl h
  | cons z zs ih =>
      intro acc h
      rcases ih h with h' | h'
      · rcases mem_insertStable h' with h'' | h''
        · exact Or.inr (h'' ▸ List.mem_cons_self _ _)
        · exact Or.inl h''
      · exact Or.inr (List.mem_cons_of_mem _ h')

theorem mem_dedupFirst {y : Int} :
    ∀ {l : List Int} {acc : List Int},
      y ∈ l.foldl (fun acc x => if x ∈ acc then acc else acc ++ [x]) acc →
      y ∈ acc ∨ y ∈ l := by
  intro l
  induction l with
  | nil =>
      intro acc h
      exact Or.inl h
  | cons z zs ih =>
      intro acc h
      rcases ih h with h' | h'
      · by_cases hz : z ∈ acc
        · simp only [hz, if_true] at h'
          exact Or.inl h'
        · simp only [hz, if_false] at h'
          rcases List.mem_append.1 h' with h'' | h''
          · exact Or.inl h''
          · simp at h''
            exact Or.inr (h'' ▸ List.mem_cons_self _ _)
      · exact Or.inr (List.mem_cons_of_mem _ h')

theorem map_eq_filterMap_map_some {α β : Type} (F : α → Option β) :
    ∀ (l : List α), (∀ x ∈ l, (F x).isSome) →
      l.map F = (l.filterMap F).map some := by
  intro l
  induction l with
  | nil => simp
  | cons x xs ih =>
      intro h
      have hx := h x (List.mem_cons_self _ _)
      rcases hF : F x with _ | y
      · rw [hF] at hx
        simp at hx
      · simp only [List.map_cons, List.filterMap_cons, hF]
        rw [ih (fun z hz => h z (List.mem_cons_of_mem _ hz))]

end ListHelpers

section AdjacencyLemmas

theorem adjPush_pres {C : Int → Int → Prop} {k v : Int} :
    ∀ {m : List (Int × List Int)},
      (∀ q ∈ m, ∀ x ∈ q.2, C q.1 x) → C k v →
      ∀ q ∈ adjPush k v m, ∀ x ∈ q.2, C q.1 x := by
  intro m
  induction m with
  | nil =>
      intro _ hkv q hq x hx
      simp [adjPush] at hq
      subst hq
      simp at hx
      subst hx
      exact hkv
  | cons p ps ih =>
      intro hm hkv q hq x hx
      by_cases hp : p.1 = k
      · simp only [adjPush, hp, if_true] at hq
        rcases List.mem_cons.1 hq with rfl | hq
        · rcases List.mem_append.1 hx with hx | hx
          · exact hp ▸ hm p (List.mem_cons_self _ _) x hx
          · simp at hx
            subst hx
            exact hp ▸ hkv
        · exact hm q (List.mem_cons_of_mem _ hq) x hx
      · simp only [adjPush, hp, if_false] at hq
        rcases List.mem_cons.1 hq with rfl | hq
        · exact hm q (List.mem_cons_self _ _) x hx
        · exact ih (fun r hr => hm r (List.mem_cons_of_mem _ hr)) hkv q hq x hx

theorem adjacencyOf_isWallEdge (walls : List Wall) :
    ∀ q ∈ adjacencyOf walls, ∀ x ∈ q.2, isWallEdge walls q.1 x := by
  have main : ∀ (ws : List Wall) (m0 : List (Int × List Int)),
      (∀ w ∈ ws, w ∈ walls) →
      (∀ q ∈ m0, ∀ x ∈ q.2, isWallEdge walls q.1 x) →
      ∀ q ∈ ws.foldl (fun m w => adjPush w.b w.a (adjPush w.a w.b m)) m0,
        ∀ x ∈ q.2, isWallEdge walls q.1 x := by
    intro ws
    induction ws with
    | nil => intro m0 _ hm0; simpa using hm0
    | cons w ws ih =>
        intro m0 hws hm0
        simp only [List.foldl_cons]
        apply ih
        · intro w' hw'
          exact hws w' (List.mem_cons_of_mem _ hw')
        · have hw : w ∈ walls := hws w (List.mem_cons_self _ _)
          exact adjPush_pres (adjPush_pres hm0 ⟨w, hw, Or.inl ⟨rfl, rfl⟩⟩)
            ⟨w, hw, Or.inr ⟨rfl, rfl⟩⟩
  intro q hq
  exact main walls [] (fun _ h => h) (by simp) q hq

theorem angleMapOf_sub (nm : List (Int × NodePoint)) (adj : List (Int × List Int)) :
    ∀ p ∈ angleMapOf nm adj, (jsGet p.1 nm).isSome ∧
      ∃ q ∈ adj, q.1 = p.1 ∧ ∀ x ∈ p.2, x ∈ q.2 := by
  intro p hp
  rcases List.mem_filterMap.1 hp with ⟨q, hq, hF⟩
  rcases hnode : jsGet q.1 nm with _ | node
  · rw [hnode] at hF
    simp at hF
  · rw [hnode] at hF
    simp only [Option.map_some'] at hF
    cases hF
    refine ⟨by simp [hnode], q, hq, rfl, ?_⟩
    intro x hx
    have hx1 : x ∈ dedupFirst q.2 := by
      rcases mem_sortStable hx with h | h
      · simp at h
      · exact h
    rcases mem_dedupFirst hx1 with h | h
    · simp at h
    · exact h

theorem nextNeighbor_eq (am : List (Int × List Int)) (v u nxt : Int)
    (h : nextNeighbor am v u = some nxt) :
    ∃ l, jsGet v am = some l ∧ nxt ∈ l := by
  unfold nextNeighbor at h
  rcases hl : jsGet v am with _ | l
  · rw [hl] at h
    simp at h
  · rw [hl] at h
    refine ⟨l, rfl, ?_⟩
    by_cases hlen : l.length < 2
    · simp [hlen] at h
    · simp only [hlen, if_false] at h
      rcases hidx : l.findIdx? (fun x => x == u) with _ | index
      · rw [hidx] at h
        simp at h
      · rw [hidx] at h
        simp only [Option.some.injEq] at h
        have hlen1 : 0 < l.length := by omega
        have hmod : (index + l.length - 1) % l.length < l.length := Nat.mod_lt _ hlen1
        rw [← h]
        rw [List.getD_eq_getElem _ _ hmod]
        exact List.getElem_mem hmod

end AdjacencyLemmas

section TraceLemmas

theorem nextNeighbor_isSome {am : List (Int × List Int)} {v u nxt : Int}
    (h : nextNeighbor am v u = some nxt) : (jsGet v am).isSome := by
  rcases nextNeighbor_eq am v u nxt h with ⟨l, hl, _⟩
  simp [hl]

/-- Every closed trace is a wall-edge chain from the start node back to it,
and visits only nodes with an angle-map entry. -/
theorem traceLoop_closed_props {am : List (Int × List Int)} {su sv : Int}
    (R : Int → Int → Prop)
    (ham : ∀ v u nxt, nextNeighbor am v u = some nxt → R v nxt) :
    ∀ (fuel : ℕ) (u v : Int), R u v →
      (traceLoop am su sv fuel u v).2.2 = true →
      List.Chain R u (traceLoop am su sv fuel u v).1 ∧
      (traceLoop am su sv fuel u v).1.getLast? = some su ∧
      ∀ x ∈ (traceLoop am su sv fuel u v).1, (jsGet x am).isSome := by
  intro fuel
  induction fuel with
  | zero =>
      intro u v _ hc
      simp [traceLoop] at hc
  | succ fuel ih =>
      intro u v hR hc
      rcases hnn : nextNeighbor am v u with _ | nxt
      · rw [traceLoop, hnn] at hc
        simp at hc
      · by_cases hcond : v = su ∧ nxt = sv
        · simp only [traceLoop, hnn, if_pos hcond]
          refine ⟨List.Chain.cons hR List.Chain.nil, by simp [hcond.1], ?_⟩
          intro x hx
          simp at hx
          exact hx ▸ nextNeighbor_isSome hnn
        · simp only [traceLoop, hnn, if_neg hcond] at hc ⊢
          rcases ih v nxt (ham _ _ _ hnn) hc with ⟨hchain, hlast, hsome⟩
          refine ⟨List.Chain.cons hR hchain, ?_, ?_⟩
          · rcases hr : (traceLoop am su sv fuel v nxt).1 with _ | ⟨y, ys⟩
            · rw [hr] at hlast
              simp at hlast
            · rw [hr] at hlast
              simpa [hr] using hlast
          · intro x hx
            rcases List.mem_cons.1 hx with rfl | hx
            · exact nextNeighbor_isSome hnn
            · exact hsome x hx

/-- A chain from `u` that ends back at `u` gives the cyclically wrapped
property on the cycle obtained by dropping the final repeat of `u`. -/
theorem chain_cyclic {R : Int → Int → Prop} (u : Int) (p : List Int)
    (hch : List.Chain R u p) (hlast : p.getLast? = some u) :
    ∀ i, i < ((u :: p).dropLast).length →
      R (((u :: p).dropLast).getD i 0)
        (((u :: p).dropLast).getD ((i + 1) % ((u :: p).dropLast).length) 0) := by
  have hpne : p ≠ [] := by
    intro h
    rw [h] at hlast
    simp at hlast
  have hn1 : 1 ≤ p.length := List.length_pos.2 hpne
  have hclen : ((u :: p).dropLast).length = p.length := by
    simp [List.length_dropLast]
  -- consecutive links of the full list u :: p
  have key : ∀ i (h : i < p.length), R ((u :: p).getD i 0) ((u :: p).getD (i + 1) 0) := by
    have hget := List.chain_iff_get.1 hch
    intro i h
    match i with
    | 0 =>
        have h0 := hget.1 (by omega)
        rw [List.getD_eq_getElem _ _ (by simp), List.getD_eq_getElem _ _ (by simp; omega)]
        simpa [List.get_eq_getElem] using h0
    | j + 1 =>
        have hstep := hget.2 j (by omega)
        rw [List.getD_eq_getElem _ _ (by simp; omega), List.getD_eq_getElem _ _ (by simp; omega)]
        simpa [List.get_eq_getElem] using hstep
  -- the element after the last cycle entry is u again
  obtain ⟨n, hn⟩ : ∃ n, p.length = n + 1 := ⟨p.length - 1, by omega⟩
  have hlastElem : (u :: p).getD p.length 0 = u := by
    rw [hn, List.getD_cons_succ]
    have h4 : p.getLast? = p[p.length - 1]? := List.getLast?_eq_getElem? p
    rw [h4, show p.length - 1 = n from by omega,
      List.getElem?_eq_getElem (by omega)] at hlast
    rw [List.getD_eq_getElem _ _ (by omega)]
    exact Option.some.inj hlast
  have hdrop : ∀ i (h : i < p.length),
      ((u :: p).dropLast).getD i 0 = (u :: p).getD i 0 := by
    intro i h
    have h1 : i < ((u :: p).dropLast).length := by omega
    have h2 : i < (u :: p).length := by simp; omega
    rw [List.getD_eq_getElem _ _ h1, List.getD_eq_getElem _ _ h2]
    exact List.getElem_dropLast _ _ _
  intro i hi
  rw [hclen] at hi
  by_cases hsucc : i + 1 < p.length
  · have hmod : (i + 1) % ((u :: p).dropLast).length = i + 1 := by
      rw [hclen]
      exact Nat.mod_eq_of_lt hsucc
    rw [hmod, hdrop i hi, hdrop (i + 1) hsucc]
    exact key i hi
  · have hieq : i + 1 = p.length := by omega
    have hmod : (i + 1) % ((u :: p).dropLast).length = 0 := by
      rw [hclen, hieq, Nat.mod_self]
    rw [hmod, hdrop i hi, hdrop 0 (by omega)]
    have h0 : ((u :: p)).getD 0 0 = u := by simp
    rw [h0]
    have := key i hi
    rw [hieq, hlastElem] at this
    exact this

theorem nextNeighbor_wallEdge {walls : List Wall} {v u nxt : Int}
    (h : nextNeighbor (angleMapOf (nodeMapOf nodes) (adjacencyOf walls)) v u = some nxt) :
    isWallEdge walls v nxt := by
  rcases nextNeighbor_eq _ v u nxt h with ⟨l, hl, hmem⟩
  rcases angleMapOf_sub _ _ _ (jsGet_mem hl) with ⟨_, q, hq, hq1, hsub⟩
  have := adjacencyOf_isWallEdge walls q hq nxt (hsub nxt hmem)
  rwa [show q.1 = v from hq1] at this

theorem angleMap_node_isSome {nodes : List NodePoint} {adj : List (Int × List Int)} {v : Int}
    (h : (jsGet v (angleMapOf (nodeMapOf nodes) adj)).isSome) :
    (jsGet v (nodeMapOf nodes)).isSome := by
  rcases Option.isSome_iff_exists.1 h with ⟨l, hl⟩
  exact (angleMapOf_sub _ _ _ (jsGet_mem hl)).1

/-- One tracing step preserves the face invariant. -/
theorem traceDir_faceOK (nodes : List NodePoint) (walls : List Wall)
    (st : List (Int × Int) × List Face) (su sv : Int)
    (hst : ∀ f ∈ st.2, FaceOK nodes walls f)
    (hedge : isWallEdge walls su sv) :
    ∀ f ∈ (traceDir (nodeMapOf nodes)
        (angleMapOf (nodeMapOf nodes) (adjacencyOf walls)) st su sv).2,
      FaceOK nodes walls f := by
  intro f hf
  by_cases hvis : (su, sv) ∈ st.1
  · rw [traceDir, if_pos hvis] at hf
    exact hst f hf
  · simp only [traceDir, if_neg hvis] at hf
    split_ifs at hf with h1 h2
    · rcases List.mem_append.1 hf with hf | hf
      · exact hst f hf
      · simp at hf
        subst hf
        rcases traceLoop_closed_props (isWallEdge walls)
          (fun v u nxt h => nextNeighbor_wallEdge h) 500 su sv hedge h1.1 with
          ⟨hchain, hlast, hsome⟩
        set r := traceLoop (angleMapOf (nodeMapOf nodes) (adjacencyOf walls)) su sv 500 su sv
          with hrdef
        have hsub : ((su :: r.1).dropLast) ⊆ su :: r.1 := List.dropLast_subset _
        have hids : ∀ id ∈ (su :: r.1).dropLast,
            ((jsGet id (nodeMapOf nodes)).map (fun n => Vec2.mk n.x n.y)).isSome := by
          intro id hid
          rcases List.mem_cons.1 (hsub hid) with rfl | hid2
          · have : (jsGet id (nodeMapOf nodes)).isSome :=
              angleMap_node_isSome (hsome _ (List.mem_of_getLast?_eq_some hlast))
            simpa using this
          · have : (jsGet id (nodeMapOf nodes)).isSome :=
              angleMap_node_isSome (hsome _ hid2)
            simpa using this
        refine ⟨?_, ?_, ?_⟩
        · have hlen : (su :: r.1).dropLast.length = (su :: r.1).length - 1 :=
            List.length_dropLast _
          have := h1.2
          simp only [hlen]
          omega
        · exact chain_cyclic su r.1 hchain hlast
        · exact map_eq_filterMap_map_some _ _ hids
    · exact hst f hf
    · exact hst f hf

/-- Every traced face satisfies the invariant. -/
theorem tracedFaces_ok (nodes : List NodePoint) (walls : List Wall) :
    ∀ f ∈ tracedFaces nodes walls, FaceOK nodes walls f := by
  have main : ∀ (ws : List Wall) (st : List (Int × Int) × List Face),
      (∀ w ∈ ws, w ∈ walls) →
      (∀ f ∈ st.2, FaceOK nodes walls f) →
      ∀ f ∈ (ws.foldl (fun st w =>
          traceDir (nodeMapOf nodes)
            (angleMapOf (nodeMapOf nodes) (adjacencyOf walls))
            (traceDir (nodeMapOf nodes)
              (angleMapOf (nodeMapOf nodes) (adjacencyOf walls)) st w.a w.b)
            w.b w.a) st).2,
        FaceOK nodes walls f := by
    intro ws
    induction ws with
    | nil => intro st _ hst; simpa using hst
    | cons w ws ih =>
        intro st hws hst
        simp only [List.foldl_cons]
        apply ih
        · intro w' hw'
          exact hws w' (List.mem_cons_of_mem _ hw')
        · have hw : w ∈ walls := hws w (List.mem_cons_self _ _)
          apply traceDir_faceOK
          · exact traceDir_faceOK nodes walls st w.a w.b hst ⟨w, hw, Or.inl ⟨rfl, rfl⟩⟩
          · exact ⟨w, hw, Or.inr ⟨rfl, rfl⟩⟩
  intro f hf
  exact main walls ([], []) (fun _ h => h) (by simp) f hf

end TraceLemmas

section WindingLemmas

/-- Filtering by two mutually exclusive predicates cannot exceed the
original length. -/
theorem length_filter_add_filter_le {α : Type} (p q : α → Bool) (l : List α)
    (hpq : ∀ x, p x = true → q x = false) :
    (l.filter p).length + (l.filter q).length ≤ l.length := by
  induction l with
  | nil => simp
  | cons x xs ih =>
      by_cases hp : p x = true
      · have hq := hpq x hp
        simp [List.filter_cons, hp, hq]
        omega
      · simp only [List.filter_cons]
        rw [Bool.not_eq_true] at hp
        simp only [hp, cond_false]
        by_cases hq : q x = true
        · simp [hq]
          omega
        · rw [Bool.not_eq_true] at hq
          simp [hq]
          omega

/-- The component filter of `buildRoomsFromWalls` computes exactly the
spec's preference rule. -/
theorem keepPreferred_eq_specKeep (g : List Face) : keepPreferred g = specKeep g := by
  by_cases h1 : g.length ≤ 1
  · have hsplit : g.filter (fun f => 0 < f.area) = [] ∨ g.filter (fun f => f.area < 0) = [] := by
      match g, h1 with
      | [], _ => left; rfl
      | [f], _ =>
          by_cases hf : 0 < f.area
          · right
            simp [List.filter_singleton, asymm hf]
          · left
            simp [List.filter_singleton, hf]
    simp only [keepPreferred, specKeep, h1, if_true]
    rcases hsplit with h | h <;> simp [h]
  · simp only [keepPreferred, specKeep, h1, if_false]
    by_cases hpos : g.filter (fun f => 0 < f.area) = []
    · simp [hpos]
    · by_cases hneg : g.filter (fun f => f.area < 0) = []
      · simp [hneg]
      · have hp0 : (g.filter (fun f => 0 < f.area)).length ≠ 0 :=
          fun hc => hpos (List.length_eq_zero.1 hc)
        have hn0 : (g.filter (fun f => f.area < 0)).length ≠ 0 :=
          fun hc => hneg (List.length_eq_zero.1 hc)
        simp only [hpos, hneg, hp0, hn0, or_self, if_false, false_or, or_false]
        rcases lt_trichotomy (g.filter (fun f => f.area < 0)).length
            (g.filter (fun f => 0 < f.area)).length with hlt | heq | hgt
        · have h2 : ¬ (g.filter (fun f => f.area < 0)).length >
              (g.filter (fun f => 0 < f.area)).length := by omega
          have h3 : ¬ (g.filter (fun f => f.area < 0)).length =
              (g.filter (fun f => 0 < f.area)).length := by omega
          have h4 : ¬ (g.filter (fun f => 0 < f.area)).length <
              (g.filter (fun f => f.area < 0)).length := by omega
          simp [h2, h3, h4, hlt]
        · have h2 : ¬ (g.filter (fun f => f.area < 0)).length >
              (g.filter (fun f => 0 < f.area)).length := by omega
          have h3 : ¬ (g.filter (fun f => f.area < 0)).length <
              (g.filter (fun f => 0 < f.area)).length := by omega
          have h4 : ¬ (g.filter (fun f => 0 < f.area)).length <
              (g.filter (fun f => f.area < 0)).length := by omega
          simp [h2, h3, h4, heq]
        · have h2 : (g.filter (fun f => f.area < 0)).length >
              (g.filter (fun f => 0 < f.area)).length := hgt
          have h3 : ¬ (g.filter (fun f => f.area < 0)).length <
              (g.filter (fun f => 0 < f.area)).length := by omega
          simp [h2, h3, hgt]

end WindingLemmas

section RoomMembership

theorem mem_keepPreferred {f : Face} {g : List Face} (h : f ∈ keepPreferred g) :
    f ∈ g := by
  simp only [keepPreferred] at h
  split_ifs at h <;> first | exact h | exact List.mem_of_mem_filter h

theorem pushGroup_pres {C : Face → Prop} {k : Int} {f0 : Face} :
    ∀ {m : List (Int × List Face)},
      (∀ q ∈ m, ∀ f ∈ q.2, C f) → C f0 →
      ∀ q ∈ pushGroup k f0 m, ∀ f ∈ q.2, C f := by
  intro m
  induction m with
  | nil =>
      intro _ hf0 q hq f hf
      simp [pushGroup] at hq
      subst hq
      simp at hf
      subst hf
      exact hf0
  | cons p ps ih =>
      intro hm hf0 q hq f hf
      by_cases hp : p.1 = k
      · simp only [pushGroup, hp, if_true] at hq
        rcases List.mem_cons.1 hq with rfl | hq
        · rcases List.mem_append.1 hf with hf | hf
          · exact hm p (List.mem_cons_self _ _) f hf
          · simp at hf
            subst hf
            exact hf0
        · exact hm q (List.mem_cons_of_mem _ hq) f hf
      · simp only [pushGroup, hp, if_false] at hq
        rcases List.mem_cons.1 hq with rfl | hq
        · exact hm q (List.mem_cons_self _ _) f hf
        · exact ih (fun r hr => hm r (List.mem_cons_of_mem _ hr)) hf0 q hq f hf

theorem facesByComponentOf_pres (cm : List (Int × ℕ)) {C : Face → Prop} :
    ∀ (faces : List Face) (m0 : List (Int × List Face)),
      (∀ f ∈ faces, C f) → (∀ q ∈ m0, ∀ f ∈ q.2, C f) →
      ∀ q ∈ faces.foldl (fun m f =>
          pushGroup (match jsGet (f.nodeIds.headD 0) cm with
            | some c => (c : Int)
            | none => -1) f m) m0,
        ∀ f ∈ q.2, C f := by
  intro faces
  induction faces with
  | nil => intro m0 _ hm0; simpa using hm0
  | cons f0 fs ih =>
      intro m0 hfs hm0
      simp only [List.foldl_cons]
      apply ih
      · intro f hf
        exact hfs f (List.mem_cons_of_mem _ hf)
      · exact pushGroup_pres hm0 (hfs f0 (List.mem_cons_self _ _))

theorem mem_componentGroups {nodes : List NodePoint} {walls : List Wall} {g : List Face}
    (hg : g ∈ componentGroups nodes walls) :
    ∀ f ∈ g, f ∈ tracedFaces nodes walls := by
  rcases List.mem_map.1 hg with ⟨q, hq, rfl⟩
  intro f hf
  exact facesByComponentOf_pres (componentByNodeOf (adjacencyOf walls))
    (tracedFaces nodes walls) [] (fun _ h => h) (by simp) q hq f hf

theorem mem_roomsFromFaces {room : Room} {faces : List Face}
    (h : room ∈ roomsFromFaces faces) :
    ∃ f ∈ faces, room.nodeIds = f.nodeIds ∧ room.points = f.points := by
  simp only [roomsFromFaces] at h
  rcases List.mem_map.1 h with ⟨p, hp, hroom⟩
  have hf : p.2 ∈ faces := by
    rw [List.enum_eq_zip_range] at hp
    exact (List.of_mem_zip hp).2
  exact ⟨p.2, hf, by rw [← hroom], by rw [← hroom]⟩

/-- Every returned room carries the cycle and points of some traced face. -/
theorem room_from_face {nodes : List NodePoint} {walls : List Wall} {room : Room}
    (h : room ∈ buildRoomsFromWalls nodes walls) :
    ∃ f ∈ tracedFaces nodes walls, room.nodeIds = f.nodeIds ∧ room.points = f.points := by
  simp only [buildRoomsFromWalls] at h
  by_cases hfz : tracedFaces nodes walls = []
  · rw [if_pos hfz] at h
    simp at h
  · rw [if_neg hfz] at h
    rcases mem_roomsFromFaces h with ⟨f, hf, h1, h2⟩
    rcases List.mem_flatMap.1 hf with ⟨g, hg, hfg⟩
    exact ⟨f, mem_componentGroups hg f (mem_keepPreferred hfg), h1, h2⟩

end RoomMembership

/-! ## Claim C1 -/

/-- C1: in every connected component whose traced faces include both
windings, `buildRoomsFromWalls` keeps exactly the preferred winding group —
the one with strictly more faces, or on a count tie the one with smaller
total unsigned area (`specKeep`, worded from the spec; an exact area tie
keeps the positive group) — and keeps every face of a single-winding
component.  Stated as: the returned rooms are the numbered faces obtained
by applying the spec rule to every component group. -/
theorem buildRooms_winding_disambiguation (nodes : List NodePoint) (walls : List Wall) :
    buildRoomsFromWalls nodes walls =
      roomsFromFaces ((componentGroups nodes walls).flatMap specKeep) := by
  unfold buildRoomsFromWalls
  by_cases h : tracedFaces nodes walls = []
  · simp [h, componentGroups, facesByComponentOf, roomsFromFaces]
  · simp only [h, if_false]
    rw [funext keepPreferred_eq_specKeep]

/-! ## Claim C5 -/

/-- C5 (amended): on a component group with both windings present in equal
numbers, the winding group with the *smaller* total unsigned area is the
one `buildRoomsFromWalls` keeps (its `keepPreferred` filter returns it);
the larger-area group is the one dropped.  The claim as frozen says the
smaller-area group is dropped, which the counterexample below refutes. -/
theorem winding_tie_keeps_smaller (g : List Face)
    (hpos : g.filter (fun f => 0 < f.area) ≠ [])
    (hneg : g.filter (fun f => f.area < 0) ≠ [])
    (hlen : (g.filter (fun f => f.area < 0)).length =
      (g.filter (fun f => 0 < f.area)).length) :
    (sumAbsArea (g.filter (fun f => 0 < f.area)) <
        sumAbsArea (g.filter (fun f => f.area < 0)) →
      keepPreferred g = g.filter (fun f => 0 < f.area))
    ∧ (sumAbsArea (g.filter (fun f => f.area < 0)) <
        sumAbsArea (g.filter (fun f => 0 < f.area)) →
      keepPreferred g = g.filter (fun f => f.area < 0)) := by
  have hdisj := length_filter_add_filter_le (fun f => decide (0 < f.area))
    (fun f => decide (f.area < 0)) g
    (by
      intro x hx
      simp only [decide_eq_true_eq] at hx
      simp [asymm hx])
  have hp1 : (g.filter (fun f => 0 < f.area)).length ≠ 0 :=
    fun hc => hpos (List.length_eq_zero.1 hc)
  have hn1 : (g.filter (fun f => f.area < 0)).length ≠ 0 :=
    fun hc => hneg (List.length_eq_zero.1 hc)
  have hlen2 : ¬ g.length ≤ 1 := by omega
  have hgt : ¬ (g.filter (fun f => f.area < 0)).length >
      (g.filter (fun f => 0 < f.area)).length := by omega
  constructor
  · intro harea
    have hna : ¬ sumAbsArea (g.filter (fun f => f.area < 0)) <
        sumAbsArea (g.filter (fun f => 0 < f.area)) := asymm harea
    simp [keepPreferred, hlen2, hp1, hn1, hgt, hlen, hna]
  · intro harea
    simp [keepPreferred, hlen2, hp1, hn1, hgt, hlen, harea]

/-- C5 (counterexample): one component traces exactly one negative face
(area −116) and one positive face (area 16) — equal counts, distinct total
unsigned areas — and the *smaller*-area (positive) group's face is the one
that appears among the returned rooms, so it is kept, not dropped. -/
theorem winding_tie_dropped_cex :
    componentGroups tieNodes tieWalls = [[tieNegFace, tiePosFace]] ∧
    ([tieNegFace, tiePosFace].filter (fun f => 0 < f.area)).length =
      ([tieNegFace, tiePosFace].filter (fun f => f.area < 0)).length ∧
    sumAbsArea ([tieNegFace, tiePosFace].filter (fun f => 0 < f.area)) <
      sumAbsArea ([tieNegFace, tiePosFace].filter (fun f => f.area < 0)) ∧
    (buildRoomsFromWalls tieNodes tieWalls).map Room.nodeIds = [tiePosFace.nodeIds] := by
  exact ⟨by decide, by decide, by decide, by decide⟩

/-- C5 witness: the component filter applied to the traced group of the
counterexample input keeps the positive (smaller-area) group. -/
theorem winding_tie_keeps_smaller_witness :
    keepPreferred [tieNegFace, tiePosFace]
      = [tieNegFace, tiePosFace].filter (fun f => 0 < f.area) :=
  (winding_tie_keeps_smaller [tieNegFace, tiePosFace]
    (by decide) (by decide) (by decide)).1 (by decide)

/-! ## Claim C2 -/

/-- C2: every Room returned by `buildRoomsFromWalls` satisfies: for every
consecutive pair of ids in its `nodeIds` cycle, including the wrap-around
pair, some Wall in the input wall list has exactly those endpoints (in
either direction). -/
theorem rooms_edges_are_walls (nodes : List NodePoint) (walls : List Wall)
    (room : Room) (h : room ∈ buildRoomsFromWalls nodes walls) :
    ∀ i, i < room.nodeIds.length →
      isWallEdge walls (room.nodeIds.getD i 0)
        (room.nodeIds.getD ((i + 1) % room.nodeIds.length) 0) := by
  rcases room_from_face h with ⟨f, hf, h1, _⟩
  rw [h1]
  exact (tracedFaces_ok nodes walls f hf).2.1

/-- C2 witness: the square's room walks wall 1 from node 1 to node 2. -/
theorem rooms_edges_are_walls_witness : isWallEdge squareWalls 1 2 :=
  rooms_edges_are_walls squareNodes squareWalls squareRoom (by decide) 0 (by decide)

/-! ## Claim C6 -/

/-- C6 (counterexample): on four nodes in convex position joined by all six
walls (the two diagonals cross with no node at the crossing), the single
returned room has the 8-entry cycle `[1, 2, 4, 1, 3, 4, 2, 3]`, which
repeats every node id — refuting the claim that a returned cycle never
repeats an id. -/
theorem room_cycle_repeated_id_cex :
    (buildRoomsFromWalls crossNodes crossWalls).map Room.nodeIds
        = [[1, 2, 4, 1, 3, 4, 2, 3]] ∧
    ¬ ([1, 2, 4, 1, 3, 4, 2, 3] : List Int).Nodup := by
  constructor
  · decide
  · decide

/-- C6 (amended): every returned room has a `nodeIds` cycle of length at
least 3; the cycle may repeat node ids (see the counterexample). -/
theorem room_cycle_length_ge_three (nodes : List NodePoint) (walls : List Wall)
    (room : Room) (h : room ∈ buildRoomsFromWalls nodes walls) :
    3 ≤ room.nodeIds.length := by
  rcases room_from_face h with ⟨f, hf, h1, _⟩
  rw [h1]
  exact (tracedFaces_ok nodes walls f hf).1

/-- C6 witness: the square's room has a cycle of length 4 ≥ 3. -/
theorem room_cycle_length_ge_three_witness : 3 ≤ squareRoom.nodeIds.length :=
  room_cycle_length_ge_three squareNodes squareWalls squareRoom (by decide)

/-! ## Claim C10 -/

/-- C10: every returned room has as many points as node ids, and the point
at each index is exactly the position of the node-map entry for the id at
that index (in particular every id in a returned cycle resolves to an
input node). -/
theorem room_points_match_nodeIds (nodes : List NodePoint) (walls : List Wall)
    (room : Room) (h : room ∈ buildRoomsFromWalls nodes walls) :
    room.points.length = room.nodeIds.length ∧
    room.nodeIds.map (fun id => (jsGet id (nodeMapOf nodes)).map (fun n => Vec2.mk n.x n.y))
      = room.points.map some := by
  rcases room_from_face h with ⟨f, hf, h1, h2⟩
  have h3 := (tracedFaces_ok nodes walls f hf).2.2
  have hlen : f.points.length = f.nodeIds.length := by
    have := congrArg List.length h3
    simpa using this.symm
  refine ⟨by rw [h1, h2]; exact hlen, by rw [h1, h2]; exact h3⟩

/-- C10 witness: the square's room, instantiated concretely. -/
theorem room_points_match_nodeIds_witness :
    squareRoom.points.length = squareRoom.nodeIds.length ∧
    squareRoom.nodeIds.map
        (fun id => (jsGet id (nodeMapOf squareNodes)).map (fun n => Vec2.mk n.x n.y))
      = squareRoom.points.map some :=
  room_points_match_nodeIds squareNodes squareWalls squareRoom (by decide)

/-! ## Claim C3 -/

/-- C3: `offsetPolygon` returns null exactly when the polygon has fewer
than 3 points or the offset count differs from the point count; in every
other case it returns exactly `points.length` vertices. -/
theorem offsetPolygon_count (hyp : ℚ → ℚ → ℚ) (points : List Vec2) (offsets : List ℚ) :
    (offsetPolygon hyp points offsets = none ↔
      points.length < 3 ∨ offsets.length ≠ points.length) ∧
    ∀ result, offsetPolygon hyp points offsets = some result →
      result.length = points.length := by
  by_cases h : points.length < 3 ∨ offsets.length ≠ points.length
  · refine ⟨⟨fun _ => h, fun _ => ?_⟩, fun result hr => ?_⟩
    · simp only [offsetPolygon, if_pos h]
    · simp only [offsetPolygon, if_pos h] at hr
      exact absurd hr (by simp)
  · refine ⟨⟨fun hc => ?_, fun hc => absurd hc h⟩, fun result hr => ?_⟩
    · simp only [offsetPolygon, if_neg h] at hc
      exact absurd hc (by simp)
    · simp only [offsetPolygon, if_neg h] at hr
      have := Option.some.inj hr
      rw [← this]
      simp

/-- C3 witness: a 2×2 square with four offsets of 1 is offset to four
copies of its centre — non-null, with exactly 4 output vertices. -/
theorem offsetPolygon_count_witness :
    offsetPolygon hypAbs zeroLenRoom.points [1, 1, 1, 1]
        = some [⟨1, 1⟩, ⟨1, 1⟩, ⟨1, 1⟩, ⟨1, 1⟩] ∧
    ([⟨1, 1⟩, ⟨1, 1⟩, ⟨1, 1⟩, ⟨1, 1⟩] : List Vec2).length = zeroLenRoom.points.length :=
  ⟨by decide, (offsetPolygon_count hypAbs zeroLenRoom.points [1, 1, 1, 1]).2 _ (by decide)⟩

/-! ## Claim C4 -/

/-- C4 (counterexample): the simple pentagon `(0,0) (1,0) (2,0) (2,2)
(0,2)` has two parallel consecutive edges at its collinear vertex
`(1,0)`; with all offsets 0 the parallel-corner fallback returns the edge
midpoint `(1/2, 0)` there, so the output is not the input (and is off by
1/2, far beyond floating tolerance).  With zero offsets, hypothesis on the
code path shows the result is independent of the hypot interpretation. -/
theorem offsetPolygon_zero_offsets_cex :
    offsetPolygon hypAbs pentagonPoints [0, 0, 0, 0, 0]
        = some [⟨0, 0⟩, ⟨1/2, 0⟩, ⟨2, 0⟩, ⟨2, 2⟩, ⟨0, 2⟩] ∧
    some [⟨0, 0⟩, ⟨(1 : ℚ)/2, 0⟩, ⟨2, 0⟩, ⟨2, 2⟩, ⟨0, 2⟩] ≠ some pentagonPoints := by
  exact ⟨by decide, by decide⟩

theorem getD_replicate_zero (n i : ℕ) : (List.replicate n (0 : ℚ)).getD i 0 = 0 := by
  induction n generalizing i with
  | zero => simp [List.getD]
  | succ m ih =>
      cases i with
      | zero => simp [List.replicate]
      | succ j => simp only [List.replicate, List.getD_cons_succ]; exact ih j

theorem prev_succ_mod (i n : ℕ) (hi : i < n) :
    ((i + n - 1) % n + 1) % n = i := by
  cases i with
  | zero =>
      have h1 : (0 + n - 1) % n = 0 + n - 1 := Nat.mod_eq_of_lt (by omega)
      rw [h1]
      have h2 : 0 + n - 1 + 1 = n := by omega
      rw [h2, Nat.mod_self]
  | succ j =>
      have h1 : (j + 1 + n - 1) % n = j := by
        have h2 : j + 1 + n - 1 = j + n := by omega
        rw [h2, Nat.add_mod_right]
        exact Nat.mod_eq_of_lt (by omega)
      rw [h1]
      exact Nat.mod_eq_of_lt hi

theorem getEdge_zero_p (hyp : ℚ → ℚ → ℚ) (points : List Vec2) (sign : ℚ) (index : ℕ) :
    (getEdge hyp points (List.replicate points.length 0) sign index).p
      = points.getD index ⟨0, 0⟩ := by
  simp [getEdge, getD_replicate_zero]

theorem getEdge_zero_d (hyp : ℚ → ℚ → ℚ) (points : List Vec2) (sign : ℚ) (index : ℕ) :
    (getEdge hyp points (List.replicate points.length 0) sign index).d
      = ⟨(points.getD ((index + 1) % points.length) ⟨0, 0⟩).x - (points.getD index ⟨0, 0⟩).x,
         (points.getD ((index + 1) % points.length) ⟨0, 0⟩).y - (points.getD index ⟨0, 0⟩).y⟩ := by
  simp [getEdge]

/-- Re-intersecting two unshifted consecutive edges recovers their shared
vertex whenever the parallel test passes. -/
theorem lineIntersection_rejoin (A B C : Vec2)
    (h : 1 / 1000000 ≤ |(B.x - A.x) * (C.y - B.y) - (B.y - A.y) * (C.x - B.x)|) :
    lineIntersection A ⟨B.x - A.x, B.y - A.y⟩ B ⟨C.x - B.x, C.y - B.y⟩ = some B := by
  have hne : (B.x - A.x) * (C.y - B.y) - (B.y - A.y) * (C.x - B.x) ≠ 0 := by
    intro h0
    rw [h0] at h
    norm_num at h
  simp only [lineIntersection]
  rw [if_neg (not_lt.2 h)]
  rw [div_self hne]
  congr 1
  cases B with
  | mk bx bY =>
      simp only [Vec2.mk.injEq]
      constructor <;> ring

/-- With all offsets 0 and a non-parallel corner, the mitre at vertex `i`
is the vertex itself, for any hypot interpretation and either sign. -/
theorem offsetVertex_zero (hyp : ℚ → ℚ → ℚ) (points : List Vec2) (sign : ℚ) (i : ℕ)
    (hi : i < points.length)
    (hcross : 1 / 1000000 ≤ |cornerCross points i|) :
    offsetVertex hyp points (List.replicate points.length 0) sign i
      = points.getD i ⟨0, 0⟩ := by
  have hidx : ((i + points.length - 1) % points.length + 1) % points.length = i :=
    prev_succ_mod i points.length hi
  have hrw : cornerCross points i =
      ((points.getD i ⟨0, 0⟩).x
          - (points.getD ((i + points.length - 1) % points.length) ⟨0, 0⟩).x)
        * ((points.getD ((i + 1) % points.length) ⟨0, 0⟩).y - (points.getD i ⟨0, 0⟩).y)
      - ((points.getD i ⟨0, 0⟩).y
          - (points.getD ((i + points.length - 1) % points.length) ⟨0, 0⟩).y)
        * ((points.getD ((i + 1) % points.length) ⟨0, 0⟩).x - (points.getD i ⟨0, 0⟩).x) := by
    simp only [cornerCross]
    rw [hidx]
  have hcc : 1 / 1000000 ≤
      |((points.getD i ⟨0, 0⟩).x
          - (points.getD ((i + points.length - 1) % points.length) ⟨0, 0⟩).x)
        * ((points.getD ((i + 1) % points.length) ⟨0, 0⟩).y - (points.getD i ⟨0, 0⟩).y)
      - ((points.getD i ⟨0, 0⟩).y
          - (points.getD ((i + points.length - 1) % points.length) ⟨0, 0⟩).y)
        * ((points.getD ((i + 1) % points.length) ⟨0, 0⟩).x - (points.getD i ⟨0, 0⟩).x)| := by
    rw [← hrw]
    exact hcross
  simp only [offsetVertex, getEdge_zero_p, getEdge_zero_d, hidx]
  rw [lineIntersection_rejoin
    (points.getD ((i + points.length - 1) % points.length) ⟨0, 0⟩)
    (points.getD i ⟨0, 0⟩)
    (points.getD ((i + 1) % points.length) ⟨0, 0⟩) hcc]
  rw [Option.getD_some]

/-- C4 (amended): `offsetPolygon` with all-zero offsets returns the input
points exactly, provided every corner passes the parallel test
(`1e-6 ≤ |cornerCross|`); at a near-parallel corner the midpoint fallback
moves the vertex (see the counterexample).  The result holds for every
hypot interpretation: with zero offsets no edge is shifted. -/
theorem offsetPolygon_zero_offsets_id (hyp : ℚ → ℚ → ℚ) (points : List Vec2)
    (h3 : 3 ≤ points.length)
    (hcross : ∀ i, i < points.length → 1 / 1000000 ≤ |cornerCross points i|) :
    offsetPolygon hyp points (List.replicate points.length 0) = some points := by
  have hcond : ¬ (points.length < 3 ∨
      (List.replicate points.length (0 : ℚ)).length ≠ points.length) :=
    not_or.2 ⟨by omega, by simp⟩
  simp only [offsetPolygon, if_neg hcond]
  congr 1
  apply List.ext_getElem
  · simp
  · intro i h1 h2
    simp only [List.getElem_map, List.getElem_range]
    rw [offsetVertex_zero hyp points _ i h2 (hcross i h2)]
    rw [List.getD_eq_getElem _ _ h2]

/-- C4 witness: the 10×10 square with zero offsets comes back unchanged. -/
theorem offsetPolygon_zero_offsets_id_witness :
    offsetPolygon hypAbs squareRoom.points (List.replicate squareRoom.points.length 0)
      = some squareRoom.points :=
  offsetPolygon_zero_offsets_id hypAbs squareRoom.points (by decide) (by decide)

/-! ## Claim C8 -/

/-- C8: when `offsetPolygon` on the room's points and its per-edge
half-thickness offsets returns null, or a polygon with fewer than 3
points, `getRoomInnerArea` returns the outer area (`polygonArea` of the
room's points over `scale²`) and `getRoomPerimeter` with
`useInnerPolygon = true` returns the outer perimeter (the `false` call).
Both functions are total in this embedding — no failure is propagated. -/
theorem innerMetrics_fallback (hyp : ℚ → ℚ → ℚ) (room : Room)
    (wem : List ((Int × Int) × List Wall)) (dt s : ℚ)
    (h : offsetPolygon hyp room.points (getRoomOffsets room wem dt s) = none ∨
      ∃ inner, offsetPolygon hyp room.points (getRoomOffsets room wem dt s) = some inner ∧
        inner.length < 3) :
    getRoomInnerArea hyp room wem dt s = polygonArea room.points / (s * s) ∧
    getRoomPerimeter hyp room wem dt s true = getRoomPerimeter hyp room wem dt s false := by
  have hnone : getRoomInnerPolygon hyp room wem dt s = none := by
    unfold getRoomInnerPolygon
    rcases h with h | ⟨inner, h1, h2⟩
    · rw [h]
    · rw [h1]
      simp only [if_pos h2]
  constructor
  · unfold getRoomInnerArea
    rw [hnone]
    rfl
  · unfold getRoomPerimeter
    rw [hnone]
    rfl

/-- C8 witness: a two-point room (offset fails outright). -/
theorem innerMetrics_fallback_witness :
    getRoomInnerArea hypAbs twoPointRoom [] 1 1 = polygonArea twoPointRoom.points / (1 * 1) ∧
    getRoomPerimeter hypAbs twoPointRoom [] 1 1 true
      = getRoomPerimeter hypAbs twoPointRoom [] 1 1 false :=
  innerMetrics_fallback hypAbs twoPointRoom [] 1 1 (Or.inl (by decide))

section InnerLengthLemmas

theorem foldl_match_filterMap {α β γ : Type} (g : α → Option β) (h : γ → β → γ) :
    ∀ (l : List α) (init : γ),
      l.foldl (fun acc a => match g a with | none => acc | some b => h acc b) init
        = (l.filterMap g).foldl h init := by
  intro l
  induction l with
  | nil => intro init; rfl
  | cons a as ih =>
      intro init
      rw [List.foldl_cons, List.filterMap_cons]
      rcases hg : g a with _ | b
      · simp only [ih]
      · simp only [List.foldl_cons, ih]

/-- `getInnerLengthByWallId` is the fold of its update stream. -/
theorem getInnerLength_eq_foldUpdates (hyp : ℚ → ℚ → ℚ) (rooms : List Room)
    (wem : List ((Int × Int) × List Wall)) (dt s : ℚ) :
    getInnerLengthByWallId hyp rooms wem dt s
      = (innerLengthUpdates hyp rooms wem dt s).foldl applyUpdate [] := by
  have aux : ∀ (rs : List Room) (m : List (Int × ℚ)),
      rs.foldl (fun map room =>
        match getRoomInnerPolygon hyp room wem dt s with
        | none => map
        | some inner =>
            if inner.length ≠ room.points.length then map
            else
              (List.range inner.length).foldl (fun map i =>
                match roomEdgeWall room wem i with
                | none => map
                | some wall =>
                    let length := distance hyp (inner.getD i ⟨0, 0⟩)
                      (inner.getD ((i + 1) % inner.length) ⟨0, 0⟩) / s
                    jsSet wall.id (innerLengthStep (jsGet wall.id map) length) map) map) m
        = (rs.flatMap (fun room => roomInnerUpdates hyp room wem dt s)).foldl
            applyUpdate m := by
    intro rs
    induction rs with
    | nil => intro m; rfl
    | cons room rest ih =>
        intro m
        rw [List.foldl_cons, List.flatMap_cons, List.foldl_append, ih]
        congr 1
        rcases hip : getRoomInnerPolygon hyp room wem dt s with _ | inner
        · simp [roomInnerUpdates, hip]
        · by_cases hlen : inner.length ≠ room.points.length
          · simp [roomInnerUpdates, hip, hlen]
          · simp only [roomInnerUpdates, hip, if_neg hlen]
            rw [← foldl_match_filterMap
              (fun i => (roomEdgeWall room wem i).map (fun wall =>
                (wall.id, distance hyp (inner.getD i ⟨0, 0⟩)
                  (inner.getD ((i + 1) % inner.length) ⟨0, 0⟩) / s)))
              applyUpdate (List.range inner.length) m]
            apply List.foldl_ext
            intro acc i _
            rcases hw : roomEdgeWall room wem i with _ | wall
            · simp [hw]
            · simp [hw, applyUpdate]
  exact aux rooms []

/-- Reading one key out of the update fold is the per-key fold of the
filtered update stream. -/
theorem jsGet_foldUpdates (wid : Int) :
    ∀ (us : List (Int × ℚ)) (m : List (Int × ℚ)),
      jsGet wid (us.foldl applyUpdate m)
        = (us.filterMap (fun u => if u.1 = wid then some u.2 else none)).foldl
            (fun acc x => some (innerLengthStep acc x)) (jsGet wid m) := by
  intro us
  induction us with
  | nil => intro m; rfl
  | cons u us ih =>
      intro m
      rw [List.foldl_cons, List.filterMap_cons, ih]
      by_cases hu : u.1 = wid
      · rw [if_pos hu, List.foldl_cons]
        congr 1
        show jsGet wid (jsSet u.1 (innerLengthStep (jsGet u.1 m) u.2) m)
          = some (innerLengthStep (jsGet wid m) u.2)
        rw [hu, jsGet_jsSet_self]
      · rw [if_neg hu]
        congr 1
        exact jsGet_jsSet_other u.1 wid _ m (fun h => hu h.symm)

/-- The declarative candidate list is the filtered update stream. -/
theorem candidates_eq_filterMap (hyp : ℚ → ℚ → ℚ) (rooms : List Room)
    (wem : List ((Int × Int) × List Wall)) (dt s : ℚ) (wid : Int) :
    innerLengthCandidates hyp rooms wem dt s wid
      = (innerLengthUpdates hyp rooms wem dt s).filterMap
          (fun u => if u.1 = wid then some u.2 else none) := by
  unfold innerLengthCandidates innerLengthUpdates
  induction rooms with
  | nil => rfl
  | cons room rest ih =>
      rw [List.flatMap_cons, List.flatMap_cons, List.filterMap_append, ih]
      congr 1
      rcases hip : getRoomInnerPolygon hyp room wem dt s with _ | inner
      · simp [roomInnerUpdates, hip]
      · by_cases hlen : inner.length ≠ room.points.length
        · simp [roomInnerUpdates, hip, hlen]
        · simp only [roomInnerUpdates, hip, if_neg hlen]
          rw [List.filterMap_filterMap]
          congr 1
          funext i
          rcases hw : roomEdgeWall room wem i with _ | wall
          · simp [hw]
          · simp [hw]

theorem foldFrom_some_ne_none :
    ∀ (l : List ℚ) (a : ℚ),
      l.foldl (fun acc x => some (innerLengthStep acc x)) (some a) ≠ none := by
  intro l
  induction l with
  | nil => intro a h; simp at h
  | cons x xs ih => intro a; rw [List.foldl_cons]; exact ih _

theorem foldInnerLength_eq_none_iff (l : List ℚ) :
    foldInnerLength l = none ↔ l = [] := by
  cases l with
  | nil => simp [foldInnerLength]
  | cons x xs =>
      simp only [foldInnerLength, List.foldl_cons]
      constructor
      · intro h
        exact absurd h (foldFrom_some_ne_none xs _)
      · intro h
        simp at h

/-- Folding `innerLengthStep` from a nonzero seed over candidates none of
which are zero yields a minimum over the seed and the candidates. -/
theorem foldFrom_min :
    ∀ (l : List ℚ), (0 : ℚ) ∉ l → ∀ v0 : ℚ, v0 ≠ 0 →
      ∃ v, l.foldl (fun acc x => some (innerLengthStep acc x)) (some v0) = some v ∧
        (v = v0 ∨ v ∈ l) ∧ v ≤ v0 ∧ ∀ x ∈ l, v ≤ x := by
  intro l
  induction l with
  | nil =>
      intro _ v0 _
      exact ⟨v0, rfl, Or.inl rfl, le_refl _, by simp⟩
  | cons x xs ih =>
      intro h0 v0 hv
      have hx0 : x ≠ 0 := fun h => h0 (h ▸ List.mem_cons_self _ _)
      have hmem0 : (0 : ℚ) ∉ xs := fun h => h0 (List.mem_cons_of_mem _ h)
      have hstep : innerLengthStep (some v0) x = min v0 x := by
        simp [innerLengthStep, hv]
      have hmin0 : min v0 x ≠ 0 := by
        rcases min_choice v0 x with h | h <;> rw [h] <;> assumption
      rcases ih hmem0 (min v0 x) hmin0 with ⟨v, hfold, hmem, hle, hall⟩
      refine ⟨v, ?_, ?_, ?_, ?_⟩
      · rw [List.foldl_cons, hstep]
        exact hfold
      · rcases hmem with h | h
        · rcases min_choice v0 x with hm | hm
          · exact Or.inl (h.trans hm)
          · exact Or.inr (by rw [h, hm]; exact List.mem_cons_self _ _)
        · exact Or.inr (List.mem_cons_of_mem _ h)
      · exact hle.trans (min_le_left _ _)
      · intro y hy
        rcases List.mem_cons.1 hy with rfl | hy
        · exact hle.trans (min_le_right _ _)
        · exact hall y hy

end InnerLengthLemmas

/-! ## Claim C7 -/

/-- C7 (amended): the value `getInnerLengthByWallId` reports for wall
`wid` is the `innerLengthStep` fold of the wall's candidate inner-edge
lengths (one per edge of each successfully offset room whose first
looked-up wall is `wid`, in processing order); there is no entry exactly
when there are no candidates; and when no candidate is 0 the reported
value is the minimum of the candidates.  The claim's plain "minimum" fails
when a zero-length candidate is stored: JavaScript's
`existing ? min(existing, length) : length` treats the stored 0 as absent
(see the counterexample). -/
theorem innerLength_fold_spec (hyp : ℚ → ℚ → ℚ) (rooms : List Room)
    (wem : List ((Int × Int) × List Wall)) (dt s : ℚ) (wid : Int) :
    jsGet wid (getInnerLengthByWallId hyp rooms wem dt s)
      = foldInnerLength (innerLengthCandidates hyp rooms wem dt s wid) ∧
    (jsGet wid (getInnerLengthByWallId hyp rooms wem dt s) = none ↔
      innerLengthCandidates hyp rooms wem dt s wid = []) ∧
    ((0 : ℚ) ∉ innerLengthCandidates hyp rooms wem dt s wid →
      ∀ v, jsGet wid (getInnerLengthByWallId hyp rooms wem dt s) = some v →
        v ∈ innerLengthCandidates hyp rooms wem dt s wid ∧
        ∀ x ∈ innerLengthCandidates hyp rooms wem dt s wid, v ≤ x) := by
  have h1 : jsGet wid (getInnerLengthByWallId hyp rooms wem dt s)
      = foldInnerLength (innerLengthCandidates hyp rooms wem dt s wid) := by
    rw [getInnerLength_eq_foldUpdates, jsGet_foldUpdates, candidates_eq_filterMap]
    rfl
  refine ⟨h1, ?_, ?_⟩
  · rw [h1]
    exact foldInnerLength_eq_none_iff _
  · intro h0 v hv
    rw [h1] at hv
    rcases hcand : innerLengthCandidates hyp rooms wem dt s wid with _ | ⟨c, cs⟩
    · rw [hcand] at hv
      simp [foldInnerLength] at hv
    · rw [hcand] at hv h0
      have hc0 : c ≠ 0 := fun h => h0 (h ▸ List.mem_cons_self _ _)
      have hcs0 : (0 : ℚ) ∉ cs := fun h => h0 (List.mem_cons_of_mem _ h)
      rcases foldFrom_min cs hcs0 c hc0 with ⟨v', hfold, hmem, hle, hall⟩
      have hveq : v' = v := by
        rw [foldInnerLength, List.foldl_cons] at hv
        have : innerLengthStep none c = c := rfl
        rw [this] at hv
        rw [hfold] at hv
        exact Option.some.inj hv
      subst hveq
      constructor
      · rcases hmem with h | h
        · exact h ▸ List.mem_cons_self _ _
        · exact List.mem_cons_of_mem _ h
      · intro x hx
        rcases List.mem_cons.1 hx with rfl | hx
        · exact hle
        · exact hall x hx

/-- C7 witness: one room bordering wall 7 with a single candidate length 2
(no zero candidates), so the reported value is the minimum. -/
theorem innerLength_fold_spec_witness :
    (2 : ℚ) ∈ innerLengthCandidates hypAbs [posLenRoom] (buildWallEdgeMap zeroLenWalls) 2 1 7 ∧
    ∀ x ∈ innerLengthCandidates hypAbs [posLenRoom] (buildWallEdgeMap zeroLenWalls) 2 1 7,
      (2 : ℚ) ≤ x :=
  (innerLength_fold_spec hypAbs [posLenRoom] (buildWallEdgeMap zeroLenWalls) 2 1 7).2.2
    (by decide) 2 (by decide)

/-- C7 (counterexample): with a first room contributing a zero-length
candidate for wall 7 and a second contributing length 2, the map reports
2 — not the minimum 0 of the candidates. -/
theorem innerLength_zero_reset_cex :
    jsGet 7 (getInnerLengthByWallId hypAbs [zeroLenRoom, posLenRoom]
        (buildWallEdgeMap zeroLenWalls) 2 1) = some 2 ∧
    (0 : ℚ) ∈ innerLengthCandidates hypAbs [zeroLenRoom, posLenRoom]
        (buildWallEdgeMap zeroLenWalls) 2 1 7 ∧
    ¬ ((2 : ℚ) ≤ 0) := by
  exact ⟨by decide, by decide, by decide⟩

/-! ## Claim C9 -/

/-- Edge 0 of the rectangle, offset inward by `o1`. -/
theorem rect_getEdge0 (x0 y0 w h o1 o2 o3 o4 : ℚ) (hw : 0 < w) (hh : 0 < h) :
    getEdge hypAbs (rectPoints x0 y0 w h) [o1, o2, o3, o4] 1 0
      = ⟨⟨x0, y0 + o1⟩, ⟨0, 1⟩, o1, ⟨x0, y0⟩, ⟨w, 0⟩⟩ := by
  have e1 : x0 + w - x0 = w := by ring
  have e2 : y0 - y0 = 0 := sub_self y0
  have habs : |w| + |(0 : ℚ)| = w := by
    rw [abs_of_pos hw, abs_zero, add_zero]
  have hlen : hypAbs w 0 = w := by
    simp [hypAbs, abs_of_pos hw]
  simp only [getEdge, rectPoints, List.getD, List.length_cons, List.length_nil]
  norm_num
  rw [hlen, if_neg hw.ne', div_self hw.ne']
  norm_num

/-- Edge 1 of the rectangle, offset inward by `o2`. -/
theorem rect_getEdge1 (x0 y0 w h o1 o2 o3 o4 : ℚ) (hw : 0 < w) (hh : 0 < h) :
    getEdge hypAbs (rectPoints x0 y0 w h) [o1, o2, o3, o4] 1 1
      = ⟨⟨x0 + w - o2, y0⟩, ⟨-1, 0⟩, o2, ⟨x0 + w, y0⟩, ⟨0, h⟩⟩ := by
  have hlen : hypAbs 0 h = h := by
    simp [hypAbs, abs_of_pos hh]
  simp only [getEdge, rectPoints, List.getD, List.length_cons, List.length_nil]
  norm_num
  rw [hlen, if_neg hh.ne', neg_div, div_self hh.ne']
  exact ⟨by ring, rfl⟩

/-- Edge 2 of the rectangle, offset inward by `o3`. -/
theorem rect_getEdge2 (x0 y0 w h o1 o2 o3 o4 : ℚ) (hw : 0 < w) (hh : 0 < h) :
    getEdge hypAbs (rectPoints x0 y0 w h) [o1, o2, o3, o4] 1 2
      = ⟨⟨x0 + w, y0 + h - o3⟩, ⟨0, -1⟩, o3, ⟨x0 + w, y0 + h⟩, ⟨-w, 0⟩⟩ := by
  have hlen : hypAbs (-w) 0 = w := by
    simp [hypAbs, abs_neg, abs_of_pos hw]
  simp only [getEdge, rectPoints, List.getD, List.length_cons, List.length_nil]
  norm_num
  rw [hlen, if_neg hw.ne', neg_div, div_self hw.ne']
  exact ⟨by ring, rfl⟩

/-- Edge 3 of the rectangle, offset inward by `o4`. -/
theorem rect_getEdge3 (x0 y0 w h o1 o2 o3 o4 : ℚ) (hw : 0 < w) (hh : 0 < h) :
    getEdge hypAbs (rectPoints x0 y0 w h) [o1, o2, o3, o4] 1 3
      = ⟨⟨x0 + o4, y0 + h⟩, ⟨1, 0⟩, o4, ⟨x0, y0 + h⟩, ⟨0, -h⟩⟩ := by
  have hlen : hypAbs 0 (-h) = h := by
    simp [hypAbs, abs_neg, abs_of_pos hh]
  simp only [getEdge, rectPoints, List.getD, List.length_cons, List.length_nil]
  norm_num
  rw [hlen, if_neg hh.ne', div_self hh.ne']
  exact ⟨by ring, rfl⟩

/-- Intersection of a horizontal with a vertical offset edge. -/
theorem lineIntersection_hv (px py qx qy dx1 dy2 : ℚ)
    (hcross : 1 / 1000000 ≤ |dx1 * dy2|) :
    lineIntersection ⟨px, py⟩ ⟨dx1, 0⟩ ⟨qx, qy⟩ ⟨0, dy2⟩ = some ⟨qx, py⟩ := by
  have hne : dx1 * dy2 ≠ 0 := by
    intro h0
    rw [h0] at hcross
    norm_num at hcross
  have hdx : dx1 ≠ 0 := left_ne_zero_of_mul hne
  have hdy : dy2 ≠ 0 := right_ne_zero_of_mul hne
  simp only [lineIntersection]
  norm_num
  refine ⟨hcross, ?_⟩
  field_simp
  ring

/-- Intersection of a vertical with a horizontal offset edge. -/
theorem lineIntersection_vh (px py qx qy dy1 dx2 : ℚ)
    (hcross : 1 / 1000000 ≤ |dy1 * dx2|) :
    lineIntersection ⟨px, py⟩ ⟨0, dy1⟩ ⟨qx, qy⟩ ⟨dx2, 0⟩ = some ⟨px, qy⟩ := by
  have hne : dy1 * dx2 ≠ 0 := by
    intro h0
    rw [h0] at hcross
    norm_num at hcross
  have hdy : dy1 ≠ 0 := left_ne_zero_of_mul hne
  have hdx : dx2 ≠ 0 := right_ne_zero_of_mul hne
  have habs : |(0 : ℚ) * 0 - dy1 * dx2| = |dy1 * dx2| := by
    rw [zero_mul, zero_sub, abs_neg]
  have hne2 : (0 : ℚ) * 0 - dy1 * dx2 ≠ 0 := by
    rw [zero_mul, zero_sub]
    exact neg_ne_zero.2 hne
  simp only [lineIntersection]
  rw [habs, if_neg (not_lt.2 hcross)]
  simp only [Option.some.injEq, Vec2.mk.injEq]
  constructor
  · ring
  · field_simp
    ring

/-- Offset vertex 0 of the rectangle. -/
theorem rect_offsetVertex0 (x0 y0 w h o1 o2 o3 o4 : ℚ) (hw : 0 < w) (hh : 0 < h)
    (heps : 1 / 1000000 ≤ w * h) :
    offsetVertex hypAbs (rectPoints x0 y0 w h) [o1, o2, o3, o4] 1 0
      = ⟨x0 + o4, y0 + o1⟩ := by
  have hlen4 : (rectPoints x0 y0 w h).length = 4 := rfl
  have hcross : 1 / 1000000 ≤ |(-h) * w| := by
    rw [abs_mul, abs_neg, abs_of_pos hh, abs_of_pos hw]
    calc 1 / 1000000 ≤ w * h := heps
    _ = h * w := mul_comm w h
  simp only [offsetVertex, hlen4]
  norm_num
  rw [rect_getEdge3 x0 y0 w h o1 o2 o3 o4 hw hh, rect_getEdge0 x0 y0 w h o1 o2 o3 o4 hw hh]
  rw [lineIntersection_vh (x0 + o4) (y0 + h) x0 (y0 + o1) (-h) w hcross]
  rfl

/-- Offset vertex 1 of the rectangle. -/
theorem rect_offsetVertex1 (x0 y0 w h o1 o2 o3 o4 : ℚ) (hw : 0 < w) (hh : 0 < h)
    (heps : 1 / 1000000 ≤ w * h) :
    offsetVertex hypAbs (rectPoints x0 y0 w h) [o1, o2, o3, o4] 1 1
      = ⟨x0 + w - o2, y0 + o1⟩ := by
  have hlen4 : (rectPoints x0 y0 w h).length = 4 := rfl
  have hcross : 1 / 1000000 ≤ |w * h| := by
    rw [abs_of_pos (mul_pos hw hh)]
    exact heps
  simp only [offsetVertex, hlen4]
  norm_num
  rw [rect_getEdge0 x0 y0 w h o1 o2 o3 o4 hw hh, rect_getEdge1 x0 y0 w h o1 o2 o3 o4 hw hh]
  rw [lineIntersection_hv x0 (y0 + o1) (x0 + w - o2) y0 w h hcross]
  rfl

/-- Offset vertex 2 of the rectangle. -/
theorem rect_offsetVertex2 (x0 y0 w h o1 o2 o3 o4 : ℚ) (hw : 0 < w) (hh : 0 < h)
    (heps : 1 / 1000000 ≤ w * h) :
    offsetVertex hypAbs (rectPoints x0 y0 w h) [o1, o2, o3, o4] 1 2
      = ⟨x0 + w - o2, y0 + h - o3⟩ := by
  have hlen4 : (rectPoints x0 y0 w h).length = 4 := rfl
  have hcross : 1 / 1000000 ≤ |h * -w| := by
    rw [mul_neg, abs_neg, abs_mul, abs_of_pos hh, abs_of_pos hw]
    calc 1 / 1000000 ≤ w * h := heps
    _ = h * w := mul_comm w h
  simp only [offsetVertex, hlen4]
  norm_num
  rw [rect_getEdge1 x0 y0 w h o1 o2 o3 o4 hw hh, rect_getEdge2 x0 y0 w h o1 o2 o3 o4 hw hh]
  rw [lineIntersection_vh (x0 + w - o2) y0 (x0 + w) (y0 + h - o3) h (-w) hcross]
  rfl

/-- Offset vertex 3 of the rectangle. -/
theorem rect_offsetVertex3 (x0 y0 w h o1 o2 o3 o4 : ℚ) (hw : 0 < w) (hh : 0 < h)
    (heps : 1 / 1000000 ≤ w * h) :
    offsetVertex hypAbs (rectPoints x0 y0 w h) [o1, o2, o3, o4] 1 3
      = ⟨x0 + o4, y0 + h - o3⟩ := by
  have hlen4 : (rectPoints x0 y0 w h).length = 4 := rfl
  have hcross : 1 / 1000000 ≤ |(-w) * -h| := by
    rw [neg_mul_neg, abs_of_pos (mul_pos hw hh)]
    exact heps
  simp only [offsetVertex, hlen4]
  norm_num
  rw [rect_getEdge2 x0 y0 w h o1 o2 o3 o4 hw hh, rect_getEdge3 x0 y0 w h o1 o2 o3 o4 hw hh]
  rw [lineIntersection_hv (x0 + w) (y0 + h - o3) (x0 + o4) (y0 + h) (-w) (-h) hcross]
  rfl

/-- The signed shoelace area of the rectangle is `w * h` (positive). -/
theorem rect_area (x0 y0 w h : ℚ) :
    polygonAreaSigned (rectPoints x0 y0 w h) = w * h := by
  have hr4 : List.range (4 : ℕ) = [0, 1, 2, 3] := rfl
  simp only [polygonAreaSigned, rectPoints, List.length_cons, List.length_nil]
  norm_num [hr4, List.getD]
  ring

/-- The full inward offset of the rectangle, vertex by vertex. -/
theorem rect_offsetPolygon (x0 y0 w h o1 o2 o3 o4 : ℚ) (hw : 0 < w) (hh : 0 < h)
    (heps : 1 / 1000000 ≤ w * h) :
    offsetPolygon hypAbs (rectPoints x0 y0 w h) [o1, o2, o3, o4]
      = some [⟨x0 + o4, y0 + o1⟩, ⟨x0 + w - o2, y0 + o1⟩,
              ⟨x0 + w - o2, y0 + h - o3⟩, ⟨x0 + o4, y0 + h - o3⟩] := by
  have hsign : (if 0 ≤ polygonAreaSigned (rectPoints x0 y0 w h) then (1 : ℚ) else -1) = 1 := by
    rw [rect_area, if_pos (le_of_lt (mul_pos hw hh))]
  have hcond : ¬ ((rectPoints x0 y0 w h).length < 3 ∨
      ([o1, o2, o3, o4] : List ℚ).length ≠ (rectPoints x0 y0 w h).length) := by
    norm_num [rectPoints]
  have hr : List.range (rectPoints x0 y0 w h).length = [0, 1, 2, 3] := rfl
  simp only [offsetPolygon, if_neg hcond, hsign, hr, List.map_cons, List.map_nil]
  rw [rect_offsetVertex0 x0 y0 w h o1 o2 o3 o4 hw hh heps,
    rect_offsetVertex1 x0 y0 w h o1 o2 o3 o4 hw hh heps,
    rect_offsetVertex2 x0 y0 w h o1 o2 o3 o4 hw hh heps,
    rect_offsetVertex3 x0 y0 w h o1 o2 o3 o4 hw hh heps]

/-- The per-edge offsets of the rectangle room: half of each wall thickness times scale. -/
theorem rect_offsets (x0 y0 w h t1 t2 t3 t4 dt s : ℚ) :
    getRoomOffsets (rectRoom x0 y0 w h) (buildWallEdgeMap (rectWalls t1 t2 t3 t4)) dt s
      = [t1 * s / 2, t2 * s / 2, t3 * s / 2, t4 * s / 2] := by
  simp [getRoomOffsets, roomEdgeWall, rectRoom, rectWalls, buildWallEdgeMap, edgeKey,
    insertWallStable, jsGet, jsSet, List.range_succ]

/-- The inner polygon of the rectangle room. -/
theorem rect_inner (x0 y0 w h t1 t2 t3 t4 dt s : ℚ) (hw : 0 < w) (hh : 0 < h)
    (heps : 1 / 1000000 ≤ w * h) :
    getRoomInnerPolygon hypAbs (rectRoom x0 y0 w h)
        (buildWallEdgeMap (rectWalls t1 t2 t3 t4)) dt s
      = some [⟨x0 + t4 * s / 2, y0 + t1 * s / 2⟩,
              ⟨x0 + w - t2 * s / 2, y0 + t1 * s / 2⟩,
              ⟨x0 + w - t2 * s / 2, y0 + h - t3 * s / 2⟩,
              ⟨x0 + t4 * s / 2, y0 + h - t3 * s / 2⟩] := by
  unfold getRoomInnerPolygon
  rw [rect_offsets]
  rw [show (rectRoom x0 y0 w h).points = rectPoints x0 y0 w h from rfl]
  rw [rect_offsetPolygon x0 y0 w h (t1 * s / 2) (t2 * s / 2) (t3 * s / 2) (t4 * s / 2) hw hh heps]
  norm_num

/-- The update stream the rectangle room contributes to the inner-length map. -/
theorem rect_updates (x0 y0 w h t1 t2 t3 t4 dt s : ℚ) (hw : 0 < w) (hh : 0 < h)
    (heps : 1 / 1000000 ≤ w * h) :
    roomInnerUpdates hypAbs (rectRoom x0 y0 w h)
        (buildWallEdgeMap (rectWalls t1 t2 t3 t4)) dt s
      = [(1, distance hypAbs ⟨x0 + t4 * s / 2, y0 + t1 * s / 2⟩
              ⟨x0 + w - t2 * s / 2, y0 + t1 * s / 2⟩ / s),
         (2, distance hypAbs ⟨x0 + w - t2 * s / 2, y0 + t1 * s / 2⟩
              ⟨x0 + w - t2 * s / 2, y0 + h - t3 * s / 2⟩ / s),
         (3, distance hypAbs ⟨x0 + w - t2 * s / 2, y0 + h - t3 * s / 2⟩
              ⟨x0 + t4 * s / 2, y0 + h - t3 * s / 2⟩ / s),
         (4, distance hypAbs ⟨x0 + t4 * s / 2, y0 + h - t3 * s / 2⟩
              ⟨x0 + t4 * s / 2, y0 + t1 * s / 2⟩ / s)] := by
  unfold roomInnerUpdates
  rw [rect_inner x0 y0 w h t1 t2 t3 t4 dt s hw hh heps]
  simp [roomEdgeWall, rectRoom, rectWalls, buildWallEdgeMap, edgeKey,
    insertWallStable, jsGet, jsSet, List.range_succ]
  rfl

/-- The complete inner-length map of the rectangle room. -/
theorem rect_map (x0 y0 w h t1 t2 t3 t4 dt s : ℚ) (hw : 0 < w) (hh : 0 < h)
    (heps : 1 / 1000000 ≤ w * h) :
    getInnerLengthByWallId hypAbs [rectRoom x0 y0 w h]
        (buildWallEdgeMap (rectWalls t1 t2 t3 t4)) dt s
      = [(1, distance hypAbs ⟨x0 + t4 * s / 2, y0 + t1 * s / 2⟩
              ⟨x0 + w - t2 * s / 2, y0 + t1 * s / 2⟩ / s),
         (2, distance hypAbs ⟨x0 + w - t2 * s / 2, y0 + t1 * s / 2⟩
              ⟨x0 + w - t2 * s / 2, y0 + h - t3 * s / 2⟩ / s),
         (3, distance hypAbs ⟨x0 + w - t2 * s / 2, y0 + h - t3 * s / 2⟩
              ⟨x0 + t4 * s / 2, y0 + h - t3 * s / 2⟩ / s),
         (4, distance hypAbs ⟨x0 + t4 * s / 2, y0 + h - t3 * s / 2⟩
              ⟨x0 + t4 * s / 2, y0 + t1 * s / 2⟩ / s)] := by
  rw [getInnerLength_eq_foldUpdates]
  simp only [innerLengthUpdates, List.flatMap_cons, List.flatMap_nil, List.append_nil]
  rw [rect_updates x0 y0 w h t1 t2 t3 t4 dt s hw hh heps]
  norm_num [applyUpdate, innerLengthStep, jsSet, jsGet]

/-- C9 (amended): for every axis-aligned rectangle room of width `w` and
height `h` with walls of arbitrary positive thicknesses whose scaled half
thicknesses fit inside the rectangle, `getInnerLengthByWallId` reports for
each of the four walls an inner length strictly smaller than the wall's
outer length (the distance between its endpoint nodes divided by `scale`).
Both corners adjacent to each wall are convex here; the reflex-corner
counterexample shows the unqualified original claim fails. -/
theorem rect_innerLength_lt_outer (x0 y0 w h t1 t2 t3 t4 dt s : ℚ)
    (hs : 0 < s) (hw : 0 < w) (hh : 0 < h) (heps : 1 / 1000000 ≤ w * h)
    (ht1 : 0 < t1) (ht2 : 0 < t2) (ht3 : 0 < t3) (ht4 : 0 < t4)
    (hnw : t2 * s / 2 + t4 * s / 2 < w) (hnh : t1 * s / 2 + t3 * s / 2 < h) :
    (∃ l, jsGet 1 (getInnerLengthByWallId hypAbs [rectRoom x0 y0 w h]
          (buildWallEdgeMap (rectWalls t1 t2 t3 t4)) dt s) = some l ∧
        l < distance hypAbs ⟨x0, y0⟩ ⟨x0 + w, y0⟩ / s) ∧
    (∃ l, jsGet 2 (getInnerLengthByWallId hypAbs [rectRoom x0 y0 w h]
          (buildWallEdgeMap (rectWalls t1 t2 t3 t4)) dt s) = some l ∧
        l < distance hypAbs ⟨x0 + w, y0⟩ ⟨x0 + w, y0 + h⟩ / s) ∧
    (∃ l, jsGet 3 (getInnerLengthByWallId hypAbs [rectRoom x0 y0 w h]
          (buildWallEdgeMap (rectWalls t1 t2 t3 t4)) dt s) = some l ∧
        l < distance hypAbs ⟨x0 + w, y0 + h⟩ ⟨x0, y0 + h⟩ / s) ∧
    (∃ l, jsGet 4 (getInnerLengthByWallId hypAbs [rectRoom x0 y0 w h]
          (buildWallEdgeMap (rectWalls t1 t2 t3 t4)) dt s) = some l ∧
        l < distance hypAbs ⟨x0, y0 + h⟩ ⟨x0, y0⟩ / s) := by
  have hm := rect_map x0 y0 w h t1 t2 t3 t4 dt s hw hh heps
  have hd1 : distance hypAbs (⟨x0 + t4 * s / 2, y0 + t1 * s / 2⟩ : Vec2)
      ⟨x0 + w - t2 * s / 2, y0 + t1 * s / 2⟩ = w - (t2 * s / 2 + t4 * s / 2) := by
    simp only [distance, hypAbs]
    rw [show x0 + t4 * s / 2 - (x0 + w - t2 * s / 2)
          = -(w - (t2 * s / 2 + t4 * s / 2)) from by ring,
        show y0 + t1 * s / 2 - (y0 + t1 * s / 2) = 0 from by ring,
        abs_zero, abs_neg, abs_of_pos (by linarith), add_zero]
  have hd2 : distance hypAbs (⟨x0 + w - t2 * s / 2, y0 + t1 * s / 2⟩ : Vec2)
      ⟨x0 + w - t2 * s / 2, y0 + h - t3 * s / 2⟩ = h - (t1 * s / 2 + t3 * s / 2) := by
    simp only [distance, hypAbs]
    rw [show x0 + w - t2 * s / 2 - (x0 + w - t2 * s / 2) = 0 from by ring,
        show y0 + t1 * s / 2 - (y0 + h - t3 * s / 2)
          = -(h - (t1 * s / 2 + t3 * s / 2)) from by ring,
        abs_zero, abs_neg, abs_of_pos (by linarith), zero_add]
  have hd3 : distance hypAbs (⟨x0 + w - t2 * s / 2, y0 + h - t3 * s / 2⟩ : Vec2)
      ⟨x0 + t4 * s / 2, y0 + h - t3 * s / 2⟩ = w - (t2 * s / 2 + t4 * s / 2) := by
    simp only [distance, hypAbs]
    rw [show x0 + w - t2 * s / 2 - (x0 + t4 * s / 2)
          = w - (t2 * s / 2 + t4 * s / 2) from by ring,
        show y0 + h - t3 * s / 2 - (y0 + h - t3 * s / 2) = 0 from by ring,
        abs_zero, abs_of_pos (by linarith), add_zero]
  have hd4 : distance hypAbs (⟨x0 + t4 * s / 2, y0 + h - t3 * s / 2⟩ : Vec2)
      ⟨x0 + t4 * s / 2, y0 + t1 * s / 2⟩ = h - (t1 * s / 2 + t3 * s / 2) := by
    simp only [distance, hypAbs]
    rw [show x0 + t4 * s / 2 - (x0 + t4 * s / 2) = 0 from by ring,
        show y0 + h - t3 * s / 2 - (y0 + t1 * s / 2)
          = h - (t1 * s / 2 + t3 * s / 2) from by ring,
        abs_zero, abs_of_pos (by linarith), zero_add]
  have ho1 : distance hypAbs (⟨x0, y0⟩ : Vec2) ⟨x0 + w, y0⟩ = w := by
    simp only [distance, hypAbs]
    rw [show x0 - (x0 + w) = -w from by ring, show y0 - y0 = 0 from by ring,
        abs_zero, abs_neg, abs_of_pos hw, add_zero]
  have ho2 : distance hypAbs (⟨x0 + w, y0⟩ : Vec2) ⟨x0 + w, y0 + h⟩ = h := by
    simp only [distance, hypAbs]
    rw [show x0 + w - (x0 + w) = 0 from by ring, show y0 - (y0 + h) = -h from by ring,
        abs_zero, abs_neg, abs_of_pos hh, zero_add]
  have ho3 : distance hypAbs (⟨x0 + w, y0 + h⟩ : Vec2) ⟨x0, y0 + h⟩ = w := by
    simp only [distance, hypAbs]
    rw [show x0 + w - x0 = w from by ring, show y0 + h - (y0 + h) = 0 from by ring,
        abs_zero, abs_of_pos hw, add_zero]
  have ho4 : distance hypAbs (⟨x0, y0 + h⟩ : Vec2) ⟨x0, y0⟩ = h := by
    simp only [distance, hypAbs]
    rw [show x0 - x0 = 0 from by ring, show y0 + h - y0 = h from by ring,
        abs_zero, abs_of_pos hh, zero_add]
  rw [hm]
  refine ⟨⟨_, rfl, ?_⟩, ⟨_, rfl, ?_⟩, ⟨_, rfl, ?_⟩, ⟨_, rfl, ?_⟩⟩
  · have hp : 0 < t2 * s / 2 + t4 * s / 2 := by positivity
    rw [hd1, ho1, div_lt_div_iff₀ hs hs]
    exact mul_lt_mul_of_pos_right (by linarith) hs
  · have hp : 0 < t1 * s / 2 + t3 * s / 2 := by positivity
    rw [hd2, ho2, div_lt_div_iff₀ hs hs]
    exact mul_lt_mul_of_pos_right (by linarith) hs
  · have hp : 0 < t2 * s / 2 + t4 * s / 2 := by positivity
    rw [hd3, ho3, div_lt_div_iff₀ hs hs]
    exact mul_lt_mul_of_pos_right (by linarith) hs
  · have hp : 0 < t1 * s / 2 + t3 * s / 2 := by positivity
    rw [hd4, ho4, div_lt_div_iff₀ hs hs]
    exact mul_lt_mul_of_pos_right (by linarith) hs

/-- Witness for C9 at a concrete rectangle: a 10 by 6 room with all wall
thicknesses 2 and scale 1; wall 1 gets an inner length below its outer
length 10. -/
theorem rect_innerLength_lt_outer_witness :
    ∃ l, jsGet 1 (getInnerLengthByWallId hypAbs [rectRoom 0 0 10 6]
          (buildWallEdgeMap (rectWalls 2 2 2 2)) 1 1) = some l ∧
        l < distance hypAbs ⟨0, 0⟩ ⟨0 + 10, 0⟩ / 1 :=
  (rect_innerLength_lt_outer 0 0 10 6 2 2 2 2 1 1 (by norm_num) (by norm_num) (by norm_num)
    (by norm_num) (by norm_num) (by norm_num) (by norm_num) (by norm_num)
    (by norm_num) (by norm_num)).1

/-- C9 (counterexample to the original claim): in the L-shaped room the
wall between the reflex corner and a convex corner (wall 3, thickness 1,
well below the 2-unit narrow dimension, inner polygon computed
successfully) has inner length exactly equal to its outer length 2: the
strict inequality fails. -/
theorem innerLength_not_lt_outer_cex :
    (getRoomInnerPolygon hypAbs lShapeRoom (buildWallEdgeMap lShapeWalls) 1 1).isSome = true ∧
    (lShapeWalls.getD 2 ⟨0, "", 0, 0, 0⟩).thickness = 1 ∧
    jsGet 3 (getInnerLengthByWallId hypAbs [lShapeRoom] (buildWallEdgeMap lShapeWalls) 1 1)
      = some 2 ∧
    distance hypAbs ⟨4, 2⟩ ⟨2, 2⟩ / 1 = 2 ∧
    ¬ ((2 : ℚ) < 2) := by decide

end P3d
